import Mathlib

set_option maxHeartbeats 1000000

/- Shallow embedding of `fairDistributionShuffle` from src/supabase-schema.sql
   (the TypeScript data-access helper bundled in that file, lines 71-228).

   Modelling conventions:
   * JS `Map` (insertion-ordered, unique keys) becomes an insertion-ordered
     association list `List (String × β)`; `Map.set` updates in place when the
     key is present and appends otherwise; iteration is list order.
   * JS `Set` (only `.size` and `.add` are used) becomes an insertion-ordered
     duplicate-free `List String` built with `setAdd`.
   * `Math.random()` is modelled by a stream of naturals `RS` supplied by the
     caller: `arr.sort(() => Math.random() - 0.5)` (an engine-defined random
     permutation) becomes a stream-driven selection shuffle `shuffleWith`
     (which can realise every permutation of its input), and
     `Math.floor(Math.random() * n)` becomes `s 0 % n`.
   * JS string truthiness is modelled exactly: a string is falsy iff it is
     the empty string `""`; this matters at `if (bestLevel)` (line 131) and
     `if (!selectedStudent || !selectedLevel)` (lines 185, 196).
   * `levelStudents.indexOf(selectedStudent)` / `splice(idx, 1)` removes the
     first occurrence of the selected record and is modelled by `List.erase`;
     this is exact whenever the pool has no two entirely identical records
     (ids are unique per the schema's PRIMARY KEY).
   * Cooldown counters are naturals: the source only ever stores `5` or
     `Math.max(x - 1, 0)`, so values never go negative and truncated `Nat`
     subtraction models `Math.max(x - 1, 0)` exactly. -/

/-- A random source: an infinite stream of naturals. -/
def RS : Type := Nat → Nat

/-- Drop the first value of a random source. -/
def RS.tail (s : RS) : RS := fun n => s (n + 1)

/-- Drop the first `k` values of a random source. -/
def RS.drop (s : RS) (k : Nat) : RS := fun n => s (k + n)

/-- The all-zero random source (a convenient concrete behaviour). -/
def zeroRS : RS := fun _ => 0

/-- One row of the `students` table, as the TypeScript `Student` interface. -/
structure Student where
  id : Nat
  level : String
  room : String
  number : String
  name : String
  is_winner : Bool
deriving DecidableEq, Repr

/-- `Map.get(k)`, returning `none` when the key is absent. -/
def mapGet? {β : Type} (m : List (String × β)) (k : String) : Option β :=
  (m.find? (fun p => p.1 == k)).map Prod.snd

/-- `Map.get(k) ?? d` / `Map.get(k) || d`: lookup with a default. -/
def mapGetD {β : Type} (m : List (String × β)) (k : String) (d : β) : β :=
  (mapGet? m k).getD d

/-- `Map.has(k)`. -/
def mapHas {β : Type} (m : List (String × β)) (k : String) : Bool :=
  (m.find? (fun p => p.1 == k)).isSome

/-- `Map.set(k, v)`: update in place when present, append otherwise. -/
def mapSet {β : Type} (m : List (String × β)) (k : String) (v : β) : List (String × β) :=
  if mapHas m k then m.map (fun p => if p.1 == k then (k, v) else p) else m ++ [(k, v)]

/-- `Set.add(x)` on an insertion-ordered duplicate-free list. -/
def setAdd (l : List String) (x : String) : List String :=
  if x ∈ l then l else l ++ [x]

/-- Stream-driven selection shuffle (fuel-indexed): repeatedly extract the
element at index `s 0 % length`.  Models the random permutation produced by
`arr.sort(() => Math.random() - 0.5)`; every permutation of the input is
realisable by a suitable stream. -/
def shuffleGo {α : Type} : Nat → RS → List α → List α
  | 0, _, _ => []
  | n + 1, s, l =>
    if h : l.length = 0 then []
    else
      let i := s 0 % l.length
      l.get ⟨i, Nat.mod_lt _ (Nat.pos_of_ne_zero h)⟩ :: shuffleGo n (RS.tail s) (l.eraseIdx i)

/-- Shuffle a list, consuming `l.length` stream values. -/
def shuffleWith {α : Type} (s : RS) (l : List α) : List α :=
  shuffleGo l.length s l

/-- Lines 74-80: group students by level (insertion-ordered buckets). -/
def groupByLevel (students : List Student) : List (String × List Student) :=
  students.foldl (fun m x => mapSet m x.level (mapGetD m x.level [] ++ [x])) []

/-- Lines 82-88: count unique rooms per level (insertion-ordered sets). -/
def roomsPerLevelOf (students : List Student) : List (String × List String) :=
  students.foldl (fun m x => mapSet m x.level (setAdd (mapGetD m x.level []) x.room)) []

/-- Lines 90-93: shuffle students within each level, threading the stream
through the buckets in insertion order. -/
def shuffleBuckets (s : RS) : List (String × List Student) → List (String × List Student) × RS
  | [] => ([], s)
  | (k, b) :: rest =>
    let p := shuffleBuckets (RS.drop s b.length) rest
    ((k, shuffleWith s b) :: p.1, p.2)

/-- Line 102: `const LEVEL_COOLDOWN = 5`. -/
def LEVEL_COOLDOWN : Nat := 5

/-- Lines 147, 210: `roomsPerLevel.get(level)?.size || 1` — `undefined` and
`0` are both falsy, so an absent or empty set yields `1`. -/
def roomCountOf (rooms : List (String × List String)) (lvl : String) : Nat :=
  match mapGet? rooms lvl with
  | some l => if l.length = 0 then 1 else l.length
  | none => 1

/-- The room-cooldown key `` `${level}-${room}` `` of lines 152, 163, 211. -/
def roomKeyOf (lvl room : String) : String := lvl ++ "-" ++ room

/-- The mutable state of the pick loop (lines 95-104), plus three
instrumentation flags recording whether the emergency fallback (lines
185-194), the all-levels-on-cooldown fallback (lines 118-136) or the
all-rooms-on-cooldown fallback (lines 157-174) ever ran. -/
structure LoopState where
  byLevel : List (String × List Student)
  levelCooldown : List (String × Nat)
  roomCooldown : List (String × Nat)
  result : List Student
  rs : RS
  emergencyUsed : Bool
  levelForcedUsed : Bool
  subFallbackUsed : Bool

/-- Lines 106-115: levels with students remaining and no cooldown. -/
def availableLevels0 (m : List (String × List Student)) (lc : List (String × Nat)) :
    List String :=
  m.filterMap (fun p => if p.2.length = 0 then none
                        else if mapGetD lc p.1 0 ≤ 0 then some p.1 else none)

/-- One iteration of the scan of lines 122-129. -/
def forcedStep (lc : List (String × Nat)) (acc : Option (String × Nat))
    (p : String × List Student) : Option (String × Nat) :=
  if p.2.length = 0 then acc
  else match acc with
    | none => some (p.1, mapGetD lc p.1 0)
    | some q => if mapGetD lc p.1 0 < q.2 then some (p.1, mapGetD lc p.1 0) else acc

/-- Lines 118-129: among non-empty buckets, the first level realising the
strictly smallest cooldown (`cooldown < minCooldown` starting from
`Infinity`), together with that cooldown. -/
def forcedLevel (m : List (String × List Student)) (lc : List (String × Nat)) :
    Option (String × Nat) :=
  m.foldl (forcedStep lc) none

/-- One iteration of the scan of lines 162-169. -/
def bestRoomStep (rc : List (String × Nat)) (lvl : String)
    (acc : Option (Student × Nat)) (x : Student) : Option (Student × Nat) :=
  match acc with
  | none => some (x, mapGetD rc (roomKeyOf lvl x.room) 0)
  | some q => if mapGetD rc (roomKeyOf lvl x.room) 0 < q.2
              then some (x, mapGetD rc (roomKeyOf lvl x.room) 0) else acc

/-- Lines 157-174: among the level's students, the first one whose room
realises the strictly smallest room cooldown. -/
def bestRoomStudent (rc : List (String × Nat)) (lvl : String) (ls : List Student) :
    Option (Student × Nat) :=
  ls.foldl (bestRoomStep rc lvl) none

/-- Lines 150-174: the `validStudents` list after the all-rooms-on-cooldown
fallback of lines 157-174 — the students of the level whose room cooldown is
`<= 0`, or, when there are none, the single student whose room realises the
lowest cooldown. -/
def validCandidates (m : List (String × List Student)) (rc : List (String × Nat))
    (lvl : String) : List Student :=
  let ls := mapGetD m lvl []
  let valid := ls.filter (fun x => mapGetD rc (roomKeyOf lvl x.room) 0 ≤ 0)
  if valid.length = 0 then
    match bestRoomStudent rc lvl ls with
    | some q => [q.1]
    | none => valid
  else valid

/-- Lines 144-183: try each candidate level in order until one yields an
entry.  Returns the selected student, its level, and whether the
all-rooms-on-cooldown fallback produced the selection.  (The local
`roomCooldownDuration` of line 148 is dead code and is omitted.)  Only a
successful selection consumes a stream value (line 178). -/
def tryLevels (m : List (String × List Student)) (rc : List (String × Nat)) (s : RS) :
    List String → Option (Student × String × Bool)
  | [] => none
  | lvl :: rest =>
    match validCandidates m rc lvl with
    | [] => tryLevels m rc s rest
    | v₀ :: vrest =>
      some (((v₀ :: vrest).get ⟨s 0 % (v₀ :: vrest).length, Nat.mod_lt _ (Nat.succ_pos _)⟩),
            lvl,
            ((mapGetD m lvl []).filter
              (fun x => mapGetD rc (roomKeyOf lvl x.room) 0 ≤ 0)).length = 0)

/-- Lines 185-193: first entry of the first non-empty bucket. -/
def emergencyPick (m : List (String × List Student)) : Option (Student × String) :=
  match m.find? (fun p => !p.2.isEmpty) with
  | some p => p.2.head?.map (fun x => (x, p.1))
  | none => none

/-- Lines 198-224: commit a pick — append to the result, remove from the
bucket (`splice` at `indexOf`), set the two cooldowns and decrement every
other cooldown with a floor of 0. -/
def commit (rooms : List (String × List String)) (st : LoopState)
    (sel : Student) (lvl : String) : LoopState :=
  let byLevel := mapSet st.byLevel lvl ((mapGetD st.byLevel lvl []).erase sel)
  let lc := mapSet st.levelCooldown lvl LEVEL_COOLDOWN
  let lc := lc.map (fun p => if p.1 == lvl then p else (p.1, p.2 - 1))
  let rkey := roomKeyOf lvl sel.room
  let rc := mapSet st.roomCooldown rkey (roomCountOf rooms lvl - 1)
  let rc := rc.map (fun p => if p.1 == rkey then p else (p.1, p.2 - 1))
  { st with byLevel := byLevel, levelCooldown := lc, roomCooldown := rc,
            result := st.result ++ [sel] }

/-- The outcome of one loop iteration: `halt` models a `break`. -/
inductive StepRes where
  | halt (st : LoopState)
  | cont (st : LoopState)

def StepRes.isCont : StepRes → Bool
  | .halt _ => false
  | .cont _ => true

def StepRes.state : StepRes → LoopState
  | .halt st => st
  | .cont st => st

/-- Lines 106-136: the candidate-level list for one pick, `none` when the
loop `break`s at line 134.  The fallback of lines 117-136 selects the level
with the lowest cooldown; `if (bestLevel)` treats the empty-string level as
falsy and breaks. -/
def candidateLevels (st : LoopState) : Option (List String) :=
  let avail0 := availableLevels0 st.byLevel st.levelCooldown
  if avail0.length = 0 then
    match forcedLevel st.byLevel st.levelCooldown with
    | some q => if q.1 = "" then none else some [q.1]
    | none => none
  else some avail0

/-- Lines 139-225 for a given candidate-level list: shuffle the candidates
(line 139), try them in order (lines 144-183), re-enter the emergency
fallback when no student was selected or the selected level is the falsy
`""` (lines 185-194), `break` if still none (line 196), otherwise commit. -/
def pickBody (rooms : List (String × List String)) (st : LoopState)
    (availPre : List String) (forcedFlag : Bool) : StepRes :=
  let avail := shuffleWith st.rs availPre
  let s1 := RS.drop st.rs availPre.length
  let sel0 := tryLevels st.byLevel st.roomCooldown s1 avail
  let s2 := if sel0.isSome then RS.tail s1 else s1
  let emergencyEntered := match sel0 with
                          | none => true
                          | some q => decide (q.2.1 = "")
  let subFlag := st.subFallbackUsed || (match sel0 with
                                        | none => false
                                        | some q => q.2.2)
  let sel1 := if emergencyEntered then
                match emergencyPick st.byLevel with
                | some q => some q
                | none => sel0.map (fun q => (q.1, q.2.1))
              else sel0.map (fun q => (q.1, q.2.1))
  let st1 := { st with rs := s2,
                       emergencyUsed := st.emergencyUsed || emergencyEntered,
                       levelForcedUsed := forcedFlag,
                       subFallbackUsed := subFlag }
  match sel1 with
  | none => .halt st1
  | some (sel, lvl) =>
    if lvl = "" then .halt st1 else .cont (commit rooms st1 sel lvl)

/-- One iteration of the `while` loop, lines 104-225. -/
def pickStep (rooms : List (String × List String)) (st : LoopState) : StepRes :=
  match candidateLevels st with
  | none => .halt st
  | some availPre =>
    pickBody rooms st availPre
      (st.levelForcedUsed ||
        decide ((availableLevels0 st.byLevel st.levelCooldown).length = 0))

/-- The `while` loop of lines 104-225, fuel-indexed: the loop condition
`result.length < students.length` makes at most `students.length` iterations
possible, each one appending exactly one entry unless it breaks. -/
def pickLoop (rooms : List (String × List String)) : Nat → LoopState → LoopState
  | 0, st => st
  | n + 1, st =>
    match pickStep rooms st with
    | .halt st' => st'
    | .cont st' => pickLoop rooms n st'

/-- The loop state right before the first iteration (lines 74-102): grouped,
room-counted, per-bucket shuffled, all cooldown maps empty. -/
def initState (students : List Student) (s : RS) : LoopState :=
  let p := shuffleBuckets s (groupByLevel students)
  ⟨p.1, [], [], [], p.2, false, false, false⟩

/-- The loop state after at most `n` iterations. -/
def runN (students : List Student) (s : RS) (n : Nat) : LoopState :=
  pickLoop (roomsPerLevelOf students) n (initState students s)

/-- Lines 71-228, the whole function. -/
def fairDistributionShuffle (students : List Student) (s : RS) : List Student :=
  if students.length ≤ 2 then students
  else (runN students s students.length).result

/-! ### Basic facts about the association-list model of JS `Map` -/

/-- The keys of an association list, in iteration order. -/
def keysOf {β : Type} (m : List (String × β)) : List String := m.map Prod.fst

/-- All entries stored in the buckets, in iteration order. -/
def flattenB (m : List (String × List Student)) : List Student :=
  m.foldr (fun p acc => p.2 ++ acc) []

/-- Invariant tying a bucket map and a partial result to the original pool:
keys are duplicate-free, buckets are level-homogeneous, every key is the
level of some pool entry, and result plus remaining buckets form a
permutation of the pool. -/
structure StructInv (students : List Student) (m : List (String × List Student))
    (res : List Student) : Prop where
  nodupKeys : (keysOf m).Nodup
  homog : ∀ p ∈ m, ∀ x ∈ p.2, x.level = p.1
  keysLevels : ∀ k ∈ keysOf m, ∃ x ∈ students, x.level = k
  permAll : (res ++ flattenB m).Perm students

/-! ### Cooldown bounds (for the implicit invariant claim) -/

/-- `(L, r)` is the level/room pair of some pool entry. -/
def poolPair (students : List Student) (L r : String) : Prop :=
  ∃ x ∈ students, x.level = L ∧ x.room = r

/-- Every level-cooldown value is at most `LEVEL_COOLDOWN`, and every
room-cooldown entry was keyed by some pool pair `(L, r)` and is bounded by
that level's window `roomCountOf L - 1`. -/
def CooldownBounds (students : List Student) (rooms : List (String × List String))
    (lc rc : List (String × Nat)) : Prop :=
  (∀ p ∈ lc, p.2 ≤ LEVEL_COOLDOWN) ∧
  (∀ p ∈ rc, ∃ L r, poolPair students L r ∧ p.1 = roomKeyOf L r ∧
    p.2 ≤ roomCountOf rooms L - 1)

/-! ### Concrete pools used in counterexamples and witnesses -/

def mkStudent (i : Nat) (l r : String) : Student :=
  ⟨i, l, r, "0", "n", false⟩

/-- Three students whose level is the empty string (the spec's "missing
group treated as empty token" case). -/
def blankPool : List Student :=
  [mkStudent 1 "" "r1", mkStudent 2 "" "r1", mkStudent 3 "" "r2"]

/-- Two levels whose room keys collide: `"a-b"`/`"c"` and `"a"`/`"b-c"`
both key to `"a-b-c"`. -/
def collidePool : List Student :=
  [mkStudent 1 "a-b" "c", mkStudent 2 "a-b" "d", mkStudent 3 "a" "b-c"]

/-- Group `"L"` with rooms A, B, C of two entries each, next to six
single-entry groups: enough groups that no fallback is ever needed while
the room cooldown of `"L"` expires between its picks. -/
def sevenPool : List Student :=
  [mkStudent 1 "L" "A", mkStudent 2 "L" "A", mkStudent 3 "L" "B",
   mkStudent 4 "L" "B", mkStudent 5 "L" "C", mkStudent 6 "L" "C",
   mkStudent 11 "M1" "m", mkStudent 12 "M2" "m", mkStudent 13 "M3" "m",
   mkStudent 14 "M4" "m", mkStudent 15 "M5" "m", mkStudent 16 "M6" "m"]

/-- A small well-formed two-level pool. -/
def pairLevelPool : List Student :=
  [mkStudent 1 "x" "r", mkStudent 2 "x" "r", mkStudent 3 "y" "r", mkStudent 4 "y" "r"]

/-- A two-element pool (trivial branch). -/
def twoPool : List Student := [mkStudent 1 "x" "r", mkStudent 2 "y" "q"]

/-- The distinct rooms of a pool, in first-occurrence order — the value the
setup of lines 82-88 stores for a single-level pool. -/
def dedupRooms (P : List Student) : List String :=
  P.foldl (fun a x => setAdd a x.room) []

/-- A single-group pool: level `"g"` with rooms A, B, C of two entries each. -/
def oneGroupPool : List Student :=
  [mkStudent 1 "g" "A", mkStudent 2 "g" "A", mkStudent 3 "g" "B",
   mkStudent 4 "g" "B", mkStudent 5 "g" "C", mkStudent 6 "g" "C"]

theorem flattenB_cons (p : String × List Student) (m : List (String × List Student)) :
    flattenB (p :: m) = p.2 ++ flattenB m := rfl

theorem flattenB_append (m₁ m₂ : List (String × List Student)) :
    flattenB (m₁ ++ m₂) = flattenB m₁ ++ flattenB m₂ := by
  induction m₁ with
  | nil => rfl
  | cons p m ih => simp [flattenB_cons, ih]

theorem keysOf_cons {β : Type} (p : String × β) (m : List (String × β)) :
    keysOf (p :: m) = p.1 :: keysOf m := rfl

theorem mapHas_iff {β : Type} {m : List (String × β)} {k : String} :
    mapHas m k = true ↔ k ∈ keysOf m := by
  unfold mapHas keysOf
  rw [List.find?_isSome]
  constructor
  · rintro ⟨p, hp, he⟩
    exact List.mem_map.mpr ⟨p, hp, by simpa using he⟩
  · intro h
    rcases List.mem_map.mp h with ⟨p, hp, he⟩
    exact ⟨p, hp, by simp [he]⟩

theorem mapGet?_mem {β : Type} {m : List (String × β)} {k : String} {v : β}
    (h : mapGet? m k = some v) : (k, v) ∈ m := by
  unfold mapGet? at h
  cases hf : m.find? (fun p => p.1 == k) with
  | none => rw [hf] at h; simp at h
  | some q =>
    have hp := List.find?_some hf
    have hm : q ∈ m := List.mem_of_find?_eq_some hf
    rw [hf] at h
    simp at h
    have h1 : q.1 = k := by simpa using hp
    have : q = (k, v) := by
      cases q
      simp_all
    rwa [this] at hm

theorem mapGet?_isSome_of_mem_keys {β : Type} {m : List (String × β)} {k : String}
    (h : k ∈ keysOf m) : ∃ v, mapGet? m k = some v := by
  have := mapHas_iff.mpr h
  unfold mapHas at this
  rcases Option.isSome_iff_exists.mp this with ⟨p, hp⟩
  exact ⟨p.2, by unfold mapGet?; rw [hp]; rfl⟩

theorem mapGet?_none_of_not_mem {β : Type} {m : List (String × β)} {k : String}
    (h : k ∉ keysOf m) : mapGet? m k = none := by
  cases hg : mapGet? m k with
  | none => rfl
  | some v =>
    exact absurd (List.mem_map.mpr ⟨(k, v), mapGet?_mem hg, rfl⟩) h

theorem map_fix_of_ne {β : Type} {m : List (String × β)} {k : String} {v : β}
    (h : ∀ p ∈ m, p.1 ≠ k) :
    m.map (fun p => if p.1 == k then (k, v) else p) = m := by
  induction m with
  | nil => rfl
  | cons p rest ih =>
    have h1 : p.1 ≠ k := h p (by simp)
    simp only [List.map_cons]
    rw [if_neg (by simpa using h1), ih (fun q hq => h q (by simp [hq]))]

/-- With duplicate-free keys, a present key splits the map and `mapSet`
rewrites exactly that entry in place. -/
theorem nodup_decomp {β : Type} {m : List (String × β)} {k : String} {b : β}
    (hn : (keysOf m).Nodup) (hmem : (k, b) ∈ m) :
    ∃ m₁ m₂, m = m₁ ++ (k, b) :: m₂ ∧ k ∉ keysOf m₁ ∧ k ∉ keysOf m₂ ∧
      (∀ v, mapSet m k v = m₁ ++ (k, v) :: m₂) ∧ mapGet? m k = some b := by
  induction m with
  | nil => simp at hmem
  | cons p rest ih =>
    rw [keysOf_cons, List.nodup_cons] at hn
    have hn1 : p.1 ∉ keysOf rest := hn.1
    have hn2 : (keysOf rest).Nodup := hn.2
    rcases List.mem_cons.mp hmem with he | hmem'
    · have hp1 : p.1 = k := by rw [← he]
      have hknr : k ∉ keysOf rest := hp1 ▸ hn1
      refine ⟨[], rest, by simp [he.symm], by simp [keysOf], hknr, ?_, ?_⟩
      · intro v
        have hhas : mapHas (p :: rest) k = true := by
          rw [mapHas_iff, keysOf_cons]; simp [hp1]
        unfold mapSet
        rw [hhas]
        simp only [if_true, List.map_cons]
        rw [if_pos (by simp [hp1]), map_fix_of_ne]
        · simp
        · intro q hq hqk
          exact hknr (List.mem_map.mpr ⟨q, hq, hqk⟩)
      · unfold mapGet?
        rw [List.find?_cons_of_pos _ (by simp [hp1])]
        simp [← he]
    · have hk : k ∈ keysOf rest :=
        List.mem_map.mpr ⟨(k, b), hmem', rfl⟩
      have hpk : p.1 ≠ k := fun h => hn1 (h ▸ hk)
      rcases ih hn2 hmem' with ⟨m₁, m₂, hsplit, hk1, hk2, hset, hget⟩
      refine ⟨p :: m₁, m₂, by simp [hsplit], ?_, hk2, ?_, ?_⟩
      · rw [keysOf_cons]
        simp only [List.mem_cons]
        rintro (h | h)
        · exact hpk h.symm
        · exact hk1 h
      · intro v
        have hhas : mapHas (p :: rest) k = true := by
          rw [mapHas_iff, keysOf_cons]
          exact List.mem_cons.mpr (Or.inr hk)
        have hhas' : mapHas rest k = true := mapHas_iff.mpr hk
        unfold mapSet
        rw [hhas]
        simp only [if_true, List.map_cons]
        rw [if_neg (by simpa using hpk)]
        have hs := hset v
        unfold mapSet at hs
        rw [hhas'] at hs
        simp only [if_true] at hs
        rw [hs]
        simp
      · unfold mapGet?
        rw [List.find?_cons_of_neg _ (by simpa using hpk)]
        exact hget

theorem mapSet_absent {β : Type} {m : List (String × β)} {k : String} (v : β)
    (h : k ∉ keysOf m) : mapSet m k v = m ++ [(k, v)] := by
  unfold mapSet
  rw [if_neg]
  intro hh
  exact h (mapHas_iff.mp hh)

theorem keysOf_append {β : Type} (m₁ m₂ : List (String × β)) :
    keysOf (m₁ ++ m₂) = keysOf m₁ ++ keysOf m₂ := by
  unfold keysOf; simp

theorem mapGetD_of_get? {β : Type} {m : List (String × β)} {k : String} {v : β} (d : β)
    (h : mapGet? m k = some v) : mapGetD m k d = v := by
  unfold mapGetD; rw [h]; rfl

theorem mapGetD_of_absent {β : Type} {m : List (String × β)} {k : String} (d : β)
    (h : k ∉ keysOf m) : mapGetD m k d = d := by
  unfold mapGetD; rw [mapGet?_none_of_not_mem h]; rfl

/-! ### The stream-driven shuffle is a permutation -/

theorem perm_get_cons_eraseIdx :
    ∀ {α : Type} (l : List α) (i : Fin l.length), l.Perm (l.get i :: l.eraseIdx i) := by
  intro α l
  induction l with
  | nil => intro i; exact absurd i.isLt (by simp)
  | cons a t ih =>
    intro i
    cases i using Fin.cases with
    | zero => simp
    | succ j =>
      have h1 : (a :: t).Perm (a :: (t.get j :: t.eraseIdx j)) := (ih j).cons a
      refine h1.trans ?_
      simpa using List.Perm.swap (t.get j) a (t.eraseIdx j)

theorem shuffleGo_perm {α : Type} :
    ∀ (n : Nat) (s : RS) (l : List α), l.length = n → (shuffleGo n s l).Perm l := by
  intro n
  induction n with
  | zero =>
    intro s l hl
    rw [List.length_eq_zero] at hl
    subst hl
    simp [shuffleGo]
  | succ n ih =>
    intro s l hl
    have hne : ¬ l.length = 0 := by omega
    unfold shuffleGo
    rw [dif_neg hne]
    have hlt : s 0 % l.length < l.length := Nat.mod_lt _ (Nat.pos_of_ne_zero hne)
    have hlen : (l.eraseIdx (s 0 % l.length)).length = n := by
      rw [List.length_eraseIdx, if_pos hlt]
      omega
    have h1 := ih (RS.tail s) (l.eraseIdx (s 0 % l.length)) hlen
    exact ((h1.cons _).trans (perm_get_cons_eraseIdx l ⟨_, hlt⟩).symm)

theorem shuffleWith_perm {α : Type} (s : RS) (l : List α) :
    (shuffleWith s l).Perm l := shuffleGo_perm _ s l rfl

theorem shuffleWith_singleton {α : Type} (s : RS) (x : α) :
    shuffleWith s [x] = [x] := by
  simp [shuffleWith, shuffleGo, Nat.mod_one]

/-! ### Specifications of the per-pick scans -/

theorem availableLevels0_mem {m : List (String × List Student)} {lc : List (String × Nat)}
    {k : String} (h : k ∈ availableLevels0 m lc) :
    (∃ b, (k, b) ∈ m ∧ b ≠ []) ∧ mapGetD lc k 0 = 0 := by
  unfold availableLevels0 at h
  rcases List.mem_filterMap.mp h with ⟨p, hp, he⟩
  by_cases h0 : p.2.length = 0
  · simp [h0] at he
  · by_cases h1 : mapGetD lc p.1 0 ≤ 0
    · rw [if_neg h0, if_pos h1] at he
      have hk : p.1 = k := by simpa using he
      refine ⟨⟨p.2, ?_, fun hnil => h0 (by simp [hnil])⟩, ?_⟩
      · rw [← hk]; exact hp
      · rw [← hk]; omega
    · rw [if_neg h0, if_neg h1] at he
      simp at he

theorem forcedStep_eq (lc : List (String × Nat)) (acc : Option (String × Nat))
    (p : String × List Student) :
    forcedStep lc acc p =
      if p.2.length = 0 then acc
      else match acc with
        | none => some (p.1, mapGetD lc p.1 0)
        | some q => if mapGetD lc p.1 0 < q.2 then some (p.1, mapGetD lc p.1 0) else acc := rfl

theorem forcedFold_none {lc : List (String × Nat)} :
    ∀ (m : List (String × List Student)) (acc : Option (String × Nat)),
      m.foldl (forcedStep lc) acc = none → acc = none ∧ ∀ p ∈ m, p.2 = [] := by
  intro m
  induction m with
  | nil => intro acc h; exact ⟨h, by simp⟩
  | cons p rest ih =>
    intro acc h
    rw [List.foldl_cons] at h
    rcases ih _ h with ⟨hstep, hrest⟩
    by_cases h0 : p.2.length = 0
    · rw [forcedStep_eq, if_pos h0] at hstep
      refine ⟨hstep, ?_⟩
      intro q hq
      rcases List.mem_cons.mp hq with he | hm
      · rw [he]; exact List.length_eq_zero.mp h0
      · exact hrest q hm
    · exfalso
      rw [forcedStep_eq, if_neg h0] at hstep
      cases acc with
      | none => simp at hstep
      | some q =>
        revert hstep
        simp only []
        split <;> simp

theorem forcedFold_some {lc : List (String × Nat)} :
    ∀ (m : List (String × List Student)) (acc : Option (String × Nat)) (q : String × Nat),
      m.foldl (forcedStep lc) acc = some q →
      (acc = some q ∨ ((∃ b, (q.1, b) ∈ m ∧ b ≠ []) ∧ q.2 = mapGetD lc q.1 0)) ∧
      (∀ p ∈ m, p.2 ≠ [] → q.2 ≤ mapGetD lc p.1 0) ∧
      (∀ q₀, acc = some q₀ → q.2 ≤ q₀.2) := by
  intro m
  induction m with
  | nil =>
    intro acc q h
    simp at h
    exact ⟨Or.inl h, by simp, fun q₀ h₀ => by rw [h] at h₀; simp at h₀; rw [h₀]⟩
  | cons p rest ih =>
    intro acc q h
    rw [List.foldl_cons] at h
    rcases ih _ q h with ⟨hor, hmin, hacc⟩
    by_cases h0 : p.2.length = 0
    · have hstep : forcedStep lc acc p = acc := by rw [forcedStep_eq, if_pos h0]
      rw [hstep] at hor hacc
      refine ⟨?_, ?_, hacc⟩
      · rcases hor with h1 | ⟨⟨b, hb, hbne⟩, h2⟩
        · exact Or.inl h1
        · exact Or.inr ⟨⟨b, List.mem_cons.mpr (Or.inr hb), hbne⟩, h2⟩
      · intro p' hp' hne
        rcases List.mem_cons.mp hp' with he | hm
        · exact absurd (by rw [he]; exact List.length_eq_zero.mp h0) hne
        · exact hmin p' hm hne
    · have hpne : p.2 ≠ [] := fun hnil => h0 (by simp [hnil])
      cases hq0 : acc with
      | none =>
        have hstep : forcedStep lc acc p = some (p.1, mapGetD lc p.1 0) := by
          rw [forcedStep_eq, if_neg h0, hq0]
        rw [hstep] at hor hacc
        have hple : q.2 ≤ mapGetD lc p.1 0 := by
          have := hacc _ rfl
          simpa using this
        refine ⟨?_, ?_, by intro q₀ hh; simp at hh⟩
        · rcases hor with h1 | ⟨⟨b, hb, hbne⟩, h2⟩
          · have hq : (p.1, mapGetD lc p.1 0) = q := by simpa using h1
            refine Or.inr ⟨⟨p.2, ?_, hpne⟩, by rw [← hq]⟩
            rw [← hq]
            exact List.mem_cons.mpr (Or.inl rfl)
          · exact Or.inr ⟨⟨b, List.mem_cons.mpr (Or.inr hb), hbne⟩, h2⟩
        · intro p' hp' hne
          rcases List.mem_cons.mp hp' with he | hm
          · rw [he]; exact hple
          · exact hmin p' hm hne
      | some q₀ =>
        by_cases hlt : mapGetD lc p.1 0 < q₀.2
        · have hstep : forcedStep lc acc p = some (p.1, mapGetD lc p.1 0) := by
            rw [forcedStep_eq, if_neg h0, hq0]
            simp [hlt]
          rw [hstep] at hor hacc
          have hple : q.2 ≤ mapGetD lc p.1 0 := by
            have := hacc _ rfl
            simpa using this
          refine ⟨?_, ?_, ?_⟩
          · rcases hor with h1 | ⟨⟨b, hb, hbne⟩, h2⟩
            · have hq : (p.1, mapGetD lc p.1 0) = q := by simpa using h1
              refine Or.inr ⟨⟨p.2, ?_, hpne⟩, by rw [← hq]⟩
              rw [← hq]
              exact List.mem_cons.mpr (Or.inl rfl)
            · exact Or.inr ⟨⟨b, List.mem_cons.mpr (Or.inr hb), hbne⟩, h2⟩
          · intro p' hp' hne
            rcases List.mem_cons.mp hp' with he | hm
            · rw [he]; exact hple
            · exact hmin p' hm hne
          · intro q₁ hq₁
            have hq₁' : q₁ = q₀ := by simpa using hq₁.symm
            rw [hq₁']
            exact le_trans hple (le_of_lt hlt)
        · have hstep : forcedStep lc acc p = some q₀ := by
            rw [forcedStep_eq, if_neg h0, hq0]
            simp [hlt]
          rw [hstep] at hor hacc
          have hq₀le : q.2 ≤ q₀.2 := hacc _ rfl
          refine ⟨?_, ?_, ?_⟩
          · rcases hor with h1 | ⟨⟨b, hb, hbne⟩, h2⟩
            · exact Or.inl h1
            · exact Or.inr ⟨⟨b, List.mem_cons.mpr (Or.inr hb), hbne⟩, h2⟩
          · intro p' hp' hne
            rcases List.mem_cons.mp hp' with he | hm
            · rw [he]
              exact le_trans hq₀le (by omega)
            · exact hmin p' hm hne
          · intro q₁ hq₁
            have hq₁' : q₁ = q₀ := by simpa using hq₁.symm
            rw [hq₁']
            exact hq₀le

theorem forcedLevel_none {m : List (String × List Student)} {lc : List (String × Nat)}
    (h : forcedLevel m lc = none) : ∀ p ∈ m, p.2 = [] :=
  (forcedFold_none m none h).2

theorem forcedLevel_some {m : List (String × List Student)} {lc : List (String × Nat)}
    {q : String × Nat} (h : forcedLevel m lc = some q) :
    (∃ b, (q.1, b) ∈ m ∧ b ≠ []) ∧ q.2 = mapGetD lc q.1 0 ∧
    (∀ p ∈ m, p.2 ≠ [] → q.2 ≤ mapGetD lc p.1 0) := by
  rcases forcedFold_some m none q h with ⟨hor, hmin, _⟩
  rcases hor with h1 | ⟨he, h2⟩
  · simp at h1
  · exact ⟨he, h2, hmin⟩

theorem forcedLevel_isSome {m : List (String × List Student)} (lc : List (String × Nat))
    {p : String × List Student} (hp : p ∈ m) (hne : p.2 ≠ []) :
    ∃ q, forcedLevel m lc = some q := by
  cases h : forcedLevel m lc with
  | none => exact absurd (forcedLevel_none h p hp) hne
  | some q => exact ⟨q, rfl⟩

theorem bestRoomFold_none {rc : List (String × Nat)} {lvl : String} :
    ∀ (ls : List Student) (acc : Option (Student × Nat)),
      ls.foldl (bestRoomStep rc lvl) acc = none → acc = none ∧ ls = [] := by
  intro ls
  induction ls with
  | nil => intro acc h; exact ⟨by simpa using h, rfl⟩
  | cons x rest ih =>
    intro acc h
    rw [List.foldl_cons] at h
    rcases ih _ h with ⟨hstep, _⟩
    exfalso
    cases acc with
    | none => simp [bestRoomStep] at hstep
    | some q =>
      revert hstep
      simp only [bestRoomStep]
      split <;> simp

theorem bestRoomFold_mem {rc : List (String × Nat)} {lvl : String} :
    ∀ (ls : List Student) (acc : Option (Student × Nat)) (q : Student × Nat),
      ls.foldl (bestRoomStep rc lvl) acc = some q → acc = some q ∨ q.1 ∈ ls := by
  intro ls
  induction ls with
  | nil => intro acc q h; exact Or.inl (by simpa using h)
  | cons x rest ih =>
    intro acc q h
    rw [List.foldl_cons] at h
    rcases ih _ q h with h1 | h2
    · cases acc with
      | none =>
        have : (x, mapGetD rc (roomKeyOf lvl x.room) 0) = q := by
          simpa [bestRoomStep] using h1
        exact Or.inr (by rw [← this]; exact List.mem_cons.mpr (Or.inl rfl))
      | some q₀ =>
        by_cases hlt : mapGetD rc (roomKeyOf lvl x.room) 0 < q₀.2
        · have : (x, mapGetD rc (roomKeyOf lvl x.room) 0) = q := by
            simpa [bestRoomStep, hlt] using h1
          exact Or.inr (by rw [← this]; exact List.mem_cons.mpr (Or.inl rfl))
        · have : q₀ = q := by simpa [bestRoomStep, hlt] using h1
          exact Or.inl (by rw [this])
    · exact Or.inr (List.mem_cons.mpr (Or.inr h2))

theorem bestRoomStudent_isSome (rc : List (String × Nat)) (lvl : String)
    {ls : List Student} (h : ls ≠ []) :
    ∃ q, bestRoomStudent rc lvl ls = some q ∧ q.1 ∈ ls := by
  cases hb : bestRoomStudent rc lvl ls with
  | none => exact absurd (bestRoomFold_none ls none hb).2 h
  | some q =>
    rcases bestRoomFold_mem ls none q hb with h1 | h2
    · simp at h1
    · exact ⟨q, rfl, h2⟩

theorem validCandidates_subset {m : List (String × List Student)}
    {rc : List (String × Nat)} {lvl : String} {x : Student}
    (h : x ∈ validCandidates m rc lvl) : x ∈ mapGetD m lvl [] := by
  unfold validCandidates at h
  by_cases h0 : ((mapGetD m lvl []).filter
      (fun x => mapGetD rc (roomKeyOf lvl x.room) 0 ≤ 0)).length = 0
  · rw [if_pos h0] at h
    cases hb : bestRoomStudent rc lvl (mapGetD m lvl []) with
    | none => rw [hb] at h; simp at h; exact h.1
    | some q =>
      rw [hb] at h
      simp at h
      rcases bestRoomFold_mem _ none q hb with h1 | h2
      · simp at h1
      · rw [h]; exact h2
  · rw [if_neg h0] at h
    exact (List.mem_filter.mp h).1

theorem validCandidates_ne_nil {m : List (String × List Student)}
    {rc : List (String × Nat)} {lvl : String}
    (h : mapGetD m lvl [] ≠ []) : validCandidates m rc lvl ≠ [] := by
  unfold validCandidates
  by_cases h0 : ((mapGetD m lvl []).filter
      (fun x => mapGetD rc (roomKeyOf lvl x.room) 0 ≤ 0)).length = 0
  · rw [if_pos h0]
    rcases bestRoomStudent_isSome rc lvl h with ⟨q, hq, _⟩
    rw [hq]
    simp
  · rw [if_neg h0]
    intro hnil
    exact h0 (by rw [hnil]; rfl)

theorem validCandidates_of_filter {m : List (String × List Student)}
    {rc : List (String × Nat)} {lvl : String}
    (h : ((mapGetD m lvl []).filter
      (fun x => mapGetD rc (roomKeyOf lvl x.room) 0 ≤ 0)).length ≠ 0) :
    validCandidates m rc lvl =
      (mapGetD m lvl []).filter (fun x => mapGetD rc (roomKeyOf lvl x.room) 0 ≤ 0) := by
  unfold validCandidates
  rw [if_neg h]

theorem tryLevels_some_spec {m : List (String × List Student)} {rc : List (String × Nat)}
    {s : RS} :
    ∀ {ll : List String} {sel : Student} {lvl : String} {fb : Bool},
      tryLevels m rc s ll = some (sel, lvl, fb) →
      lvl ∈ ll ∧ sel ∈ validCandidates m rc lvl := by
  intro ll
  induction ll with
  | nil => intro sel lvl fb h; simp [tryLevels] at h
  | cons l rest ih =>
    intro sel lvl fb h
    cases hv : validCandidates m rc l with
    | nil =>
      rw [tryLevels, hv] at h
      rcases ih h with ⟨h1, h2⟩
      exact ⟨List.mem_cons.mpr (Or.inr h1), h2⟩
    | cons v₀ vrest =>
      rw [tryLevels, hv] at h
      simp only [Option.some.injEq, Prod.mk.injEq] at h
      rcases h with ⟨hsel, hlvl, _⟩
      refine ⟨by rw [← hlvl]; exact List.mem_cons.mpr (Or.inl rfl), ?_⟩
      rw [← hlvl, ← hsel, hv]
      exact List.get_mem _ _ _

theorem tryLevels_head_some {m : List (String × List Student)} (rc : List (String × Nat))
    (s : RS) {lvl : String} (rest : List String)
    (h : mapGetD m lvl [] ≠ []) :
    ∃ sel fb, tryLevels m rc s (lvl :: rest) = some (sel, lvl, fb) ∧
      sel ∈ validCandidates m rc lvl := by
  cases hv : validCandidates m rc lvl with
  | nil => exact absurd hv (validCandidates_ne_nil h)
  | cons v₀ vrest =>
    refine ⟨(v₀ :: vrest).get ⟨s 0 % (v₀ :: vrest).length, Nat.mod_lt _ (Nat.succ_pos _)⟩,
            decide (((mapGetD m lvl []).filter
              (fun x => mapGetD rc (roomKeyOf lvl x.room) 0 ≤ 0)).length = 0), ?_, ?_⟩
    · rw [tryLevels, hv]
    · exact List.get_mem _ _ _

theorem emergencyPick_spec {m : List (String × List Student)} {sel : Student}
    {lvl : String} (h : emergencyPick m = some (sel, lvl)) :
    ∃ b, (lvl, b) ∈ m ∧ sel ∈ b := by
  unfold emergencyPick at h
  cases hf : m.find? (fun p => !p.2.isEmpty) with
  | none => rw [hf] at h; simp at h
  | some p =>
    rw [hf] at h
    have hm : p ∈ m := List.mem_of_find?_eq_some hf
    have h' : Option.map (fun x => (x, p.1)) p.2.head? = some (sel, lvl) := h
    cases hh : p.2.head? with
    | none => rw [hh] at h'; simp at h'
    | some x =>
      rw [hh] at h'
      simp at h'
      refine ⟨p.2, ?_, ?_⟩
      · have hp : p = (lvl, p.2) := by
          cases p; simp_all
        rwa [hp] at hm
      · rw [← h'.1]
        exact List.mem_of_mem_head? (by rw [hh]; rfl)

/-! ### The structural invariant of the pick loop -/

theorem perm_insert_middle (A b C : List Student) (x : Student) :
    (A ++ (b ++ [x]) ++ C).Perm ((A ++ b ++ C) ++ [x]) := by
  have h1 : A ++ (b ++ [x]) ++ C = (A ++ b) ++ ([x] ++ C) := by simp
  have h2 : (A ++ b ++ C) ++ [x] = (A ++ b) ++ (C ++ [x]) := by simp
  rw [h1, h2]
  exact List.Perm.append_left _ (List.perm_append_comm)

theorem groupFold_inv :
    ∀ (l : List Student) (m : List (String × List Student)),
      (keysOf m).Nodup →
      (∀ p ∈ m, ∀ x ∈ p.2, x.level = p.1) →
      (keysOf (l.foldl (fun m x => mapSet m x.level (mapGetD m x.level [] ++ [x])) m)).Nodup ∧
      (∀ p ∈ l.foldl (fun m x => mapSet m x.level (mapGetD m x.level [] ++ [x])) m,
        ∀ x ∈ p.2, x.level = p.1) ∧
      (flattenB (l.foldl (fun m x => mapSet m x.level (mapGetD m x.level [] ++ [x])) m)).Perm
        (flattenB m ++ l) ∧
      (∀ k ∈ keysOf (l.foldl (fun m x => mapSet m x.level (mapGetD m x.level [] ++ [x])) m),
        k ∈ keysOf m ∨ ∃ x ∈ l, x.level = k) := by
  intro l
  induction l with
  | nil =>
    intro m hn hh
    refine ⟨hn, hh, by simp, fun k hk => Or.inl hk⟩
  | cons x rest ih =>
    intro m hn hh
    rw [List.foldl_cons]
    by_cases hk : x.level ∈ keysOf m
    · rcases mapGet?_isSome_of_mem_keys hk with ⟨b, hb⟩
      have hmem : (x.level, b) ∈ m := mapGet?_mem hb
      rcases nodup_decomp hn hmem with ⟨m₁, m₂, hsplit, hk1, hk2, hset, hget⟩
      have hgd : mapGetD m x.level [] = b := mapGetD_of_get? [] hget
      have hm' : mapSet m x.level (mapGetD m x.level [] ++ [x]) = m₁ ++ (x.level, b ++ [x]) :: m₂ := by
        rw [hgd]; exact hset _
      have hkeq : keysOf (mapSet m x.level (mapGetD m x.level [] ++ [x])) = keysOf m := by
        rw [hm', hsplit, keysOf_append, keysOf_append, keysOf_cons, keysOf_cons]
      have hn' : (keysOf (mapSet m x.level (mapGetD m x.level [] ++ [x]))).Nodup := by
        rw [hkeq]; exact hn
      have hh' : ∀ p ∈ mapSet m x.level (mapGetD m x.level [] ++ [x]), ∀ y ∈ p.2, y.level = p.1 := by
        rw [hm']
        intro p hp y hy
        rcases List.mem_append.mp hp with h1 | h1
        · exact hh p (by rw [hsplit]; exact List.mem_append.mpr (Or.inl h1)) y hy
        · rcases List.mem_cons.mp h1 with h2 | h2
          · rw [h2] at hy ⊢
            rcases List.mem_append.mp hy with h3 | h3
            · exact hh (x.level, b) hmem y h3
            · simp at h3; rw [h3]
          · exact hh p (by rw [hsplit]; exact List.mem_append.mpr (Or.inr (List.mem_cons.mpr (Or.inr h2)))) y hy
      have hperm : (flattenB (mapSet m x.level (mapGetD m x.level [] ++ [x]))).Perm
          (flattenB m ++ [x]) := by
        rw [hm', hsplit, flattenB_append, flattenB_cons, flattenB_append, flattenB_cons]
        simp only [List.append_assoc]
        refine List.Perm.append_left _ (List.Perm.append_left _ ?_)
        exact List.perm_append_comm
      rcases ih _ hn' hh' with ⟨ihn, ihh, ihp, ihk⟩
      refine ⟨ihn, ihh, ?_, ?_⟩
      · refine ihp.trans ?_
        have := hperm.append_right rest
        refine this.trans ?_
        simp
      · intro k hkk
        rcases ihk k hkk with h1 | h1
        · rw [hkeq] at h1; exact Or.inl h1
        · rcases h1 with ⟨y, hy, hyl⟩
          exact Or.inr ⟨y, List.mem_cons.mpr (Or.inr hy), hyl⟩
    · have hgd : mapGetD m x.level [] = [] := mapGetD_of_absent [] hk
      have hm' : mapSet m x.level (mapGetD m x.level [] ++ [x]) = m ++ [(x.level, [x])] := by
        rw [hgd]
        simpa using mapSet_absent ([x] : List Student) hk
      have hkeq : keysOf (mapSet m x.level (mapGetD m x.level [] ++ [x])) =
          keysOf m ++ [x.level] := by
        rw [hm', keysOf_append]; rfl
      have hn' : (keysOf (mapSet m x.level (mapGetD m x.level [] ++ [x]))).Nodup := by
        rw [hkeq]
        simp [List.nodup_append, hn, hk]
      have hh' : ∀ p ∈ mapSet m x.level (mapGetD m x.level [] ++ [x]), ∀ y ∈ p.2, y.level = p.1 := by
        rw [hm']
        intro p hp y hy
        rcases List.mem_append.mp hp with h1 | h1
        · exact hh p h1 y hy
        · simp at h1
          rw [h1] at hy
          simp at hy
          rw [h1, hy]
      have hperm : (flattenB (mapSet m x.level (mapGetD m x.level [] ++ [x]))).Perm
          (flattenB m ++ [x]) := by
        rw [hm', flattenB_append, flattenB_cons]
        simp [flattenB]
      rcases ih _ hn' hh' with ⟨ihn, ihh, ihp, ihk⟩
      refine ⟨ihn, ihh, ?_, ?_⟩
      · refine ihp.trans ?_
        have := hperm.append_right rest
        refine this.trans ?_
        simp
      · intro k hkk
        rcases ihk k hkk with h1 | h1
        · rw [hkeq] at h1
          rcases List.mem_append.mp h1 with h2 | h2
          · exact Or.inl h2
          · simp at h2
            exact Or.inr ⟨x, List.mem_cons.mpr (Or.inl rfl), h2.symm⟩
        · rcases h1 with ⟨y, hy, hyl⟩
          exact Or.inr ⟨y, List.mem_cons.mpr (Or.inr hy), hyl⟩

theorem groupByLevel_nodup (students : List Student) :
    (keysOf (groupByLevel students)).Nodup :=
  (groupFold_inv students [] (by simp [keysOf]) (by simp)).1

theorem groupByLevel_homog (students : List Student) :
    ∀ p ∈ groupByLevel students, ∀ x ∈ p.2, x.level = p.1 :=
  (groupFold_inv students [] (by simp [keysOf]) (by simp)).2.1

theorem groupByLevel_perm (students : List Student) :
    (flattenB (groupByLevel students)).Perm students := by
  have := (groupFold_inv students [] (by simp [keysOf]) (by simp)).2.2.1
  simpa [flattenB] using this

theorem groupByLevel_keys (students : List Student) :
    ∀ k ∈ keysOf (groupByLevel students), ∃ x ∈ students, x.level = k := by
  intro k hk
  rcases (groupFold_inv students [] (by simp [keysOf]) (by simp)).2.2.2 k hk with h | h
  · simp [keysOf] at h
  · exact h

theorem shuffleBuckets_spec (s : RS) :
    ∀ (m : List (String × List Student)),
      keysOf (shuffleBuckets s m).1 = keysOf m ∧
      (∀ p ∈ (shuffleBuckets s m).1, ∃ b₀, (p.1, b₀) ∈ m ∧ p.2.Perm b₀) ∧
      (flattenB (shuffleBuckets s m).1).Perm (flattenB m) := by
  intro m
  induction m generalizing s with
  | nil => exact ⟨rfl, by simp [shuffleBuckets], by simp [shuffleBuckets]⟩
  | cons p rest ih =>
    cases p with
    | mk k b =>
      rcases ih (RS.drop s b.length) with ⟨ihk, ihm, ihp⟩
      refine ⟨?_, ?_, ?_⟩
      · rw [shuffleBuckets]
        simpa [keysOf_cons] using ihk
      · intro q hq
        rw [shuffleBuckets] at hq
        rcases List.mem_cons.mp hq with h1 | h1
        · refine ⟨b, ?_, ?_⟩
          · rw [h1]; exact List.mem_cons.mpr (Or.inl rfl)
          · rw [h1]; exact shuffleWith_perm s b
        · rcases ihm q h1 with ⟨b₀, hb₀, hbp⟩
          exact ⟨b₀, List.mem_cons.mpr (Or.inr hb₀), hbp⟩
      · rw [shuffleBuckets]
        simp only [flattenB_cons]
        exact ((shuffleWith_perm s b).append ihp)

theorem initState_inv (students : List Student) (s : RS) :
    StructInv students (initState students s).byLevel (initState students s).result := by
  rcases shuffleBuckets_spec s (groupByLevel students) with ⟨hk, hm, hp⟩
  refine ⟨?_, ?_, ?_, ?_⟩
  · show (keysOf (shuffleBuckets s (groupByLevel students)).1).Nodup
    rw [hk]
    exact groupByLevel_nodup students
  · intro p hp' x hx
    rcases hm p hp' with ⟨b₀, hb₀, hbp⟩
    exact groupByLevel_homog students (p.1, b₀) hb₀ x (hbp.mem_iff.mp hx)
  · intro k hk'
    apply groupByLevel_keys
    rw [← hk]
    exact hk'
  · show ([] ++ flattenB (shuffleBuckets s (groupByLevel students)).1).Perm students
    simpa using hp.trans (groupByLevel_perm students)

/-! ### Shape lemmas for one loop iteration -/

theorem pickBody_halt_shape {rooms : List (String × List String)} {st st' : LoopState}
    {availPre : List String} {f : Bool}
    (h : pickBody rooms st availPre f = .halt st') :
    st'.byLevel = st.byLevel ∧ st'.levelCooldown = st.levelCooldown ∧
    st'.roomCooldown = st.roomCooldown ∧ st'.result = st.result := by
  simp only [pickBody] at h
  cases hsel : tryLevels st.byLevel st.roomCooldown (RS.drop st.rs availPre.length)
      (shuffleWith st.rs availPre) with
  | none =>
    rw [hsel] at h
    simp only [Option.isSome_none, Bool.false_eq_true, reduceIte, Option.map_none'] at h
    cases hem : emergencyPick st.byLevel with
    | none =>
      rw [hem] at h
      simp only [] at h
      injection h with h
      rw [← h]
      exact ⟨rfl, rfl, rfl, rfl⟩
    | some q =>
      obtain ⟨qs, ql⟩ := q
      rw [hem] at h
      simp only [] at h
      by_cases hq : ql = ""
      · rw [if_pos hq] at h
        injection h with h
        rw [← h]
        exact ⟨rfl, rfl, rfl, rfl⟩
      · rw [if_neg hq] at h
        simp at h
  | some q =>
    obtain ⟨qs, ql, qb⟩ := q
    rw [hsel] at h
    simp only [Option.isSome_some, reduceIte, Option.map_some'] at h
    by_cases hq1 : ql = ""
    · rw [decide_eq_true hq1] at h
      simp only [reduceIte] at h
      cases hem : emergencyPick st.byLevel with
      | none =>
        rw [hem] at h
        simp only [] at h
        rw [if_pos hq1] at h
        injection h with h
        rw [← h]
        exact ⟨rfl, rfl, rfl, rfl⟩
      | some q' =>
        obtain ⟨qs', ql'⟩ := q'
        rw [hem] at h
        simp only [] at h
        by_cases hq' : ql' = ""
        · rw [if_pos hq'] at h
          injection h with h
          rw [← h]
          exact ⟨rfl, rfl, rfl, rfl⟩
        · rw [if_neg hq'] at h
          simp at h
    · rw [decide_eq_false hq1] at h
      simp only [Bool.false_eq_true, reduceIte] at h
      rw [if_neg hq1] at h
      simp at h

theorem pickBody_cont_shape {rooms : List (String × List String)} {st st' : LoopState}
    {availPre : List String} {f : Bool}
    (hn : (keysOf st.byLevel).Nodup)
    (h : pickBody rooms st availPre f = .cont st') :
    ∃ sel lvl s2 e g,
      sel ∈ mapGetD st.byLevel lvl [] ∧ lvl ≠ "" ∧
      st' = commit rooms { st with
                             rs := s2, emergencyUsed := e,
                             levelForcedUsed := f, subFallbackUsed := g } sel lvl := by
  simp only [pickBody] at h
  cases hsel : tryLevels st.byLevel st.roomCooldown (RS.drop st.rs availPre.length)
      (shuffleWith st.rs availPre) with
  | none =>
    rw [hsel] at h
    simp only [Option.isSome_none, Bool.false_eq_true, reduceIte, Option.map_none'] at h
    cases hem : emergencyPick st.byLevel with
    | none =>
      rw [hem] at h
      simp at h
    | some q =>
      obtain ⟨qs, ql⟩ := q
      rw [hem] at h
      simp only [] at h
      by_cases hq : ql = ""
      · rw [if_pos hq] at h
        simp at h
      · rw [if_neg hq] at h
        injection h with h
        rcases emergencyPick_spec hem with ⟨b, hbmem, hselmem⟩
        rcases nodup_decomp hn hbmem with ⟨m₁, m₂, _, _, _, _, hget⟩
        refine ⟨qs, ql, _, _, _, ?_, hq, h.symm⟩
        rw [mapGetD_of_get? [] hget]
        exact hselmem
  | some q =>
    obtain ⟨qs, ql, qb⟩ := q
    rw [hsel] at h
    simp only [Option.isSome_some, reduceIte, Option.map_some'] at h
    have hvc := (tryLevels_some_spec hsel).2
    by_cases hq1 : ql = ""
    · rw [decide_eq_true hq1] at h
      simp only [reduceIte] at h
      cases hem : emergencyPick st.byLevel with
      | none =>
        rw [hem] at h
        simp only [] at h
        rw [if_pos hq1] at h
        simp at h
      | some q' =>
        obtain ⟨qs', ql'⟩ := q'
        rw [hem] at h
        simp only [] at h
        by_cases hq' : ql' = ""
        · rw [if_pos hq'] at h
          simp at h
        · rw [if_neg hq'] at h
          injection h with h
          rcases emergencyPick_spec hem with ⟨b, hbmem, hselmem⟩
          rcases nodup_decomp hn hbmem with ⟨m₁, m₂, _, _, _, _, hget⟩
          refine ⟨qs', ql', _, _, _, ?_, hq', h.symm⟩
          rw [mapGetD_of_get? [] hget]
          exact hselmem
    · rw [decide_eq_false hq1] at h
      simp only [Bool.false_eq_true, reduceIte] at h
      rw [if_neg hq1] at h
      injection h with h
      refine ⟨qs, ql, _, _, _, ?_, hq1, h.symm⟩
      exact validCandidates_subset hvc

theorem availableLevels0_of_all_empty {m : List (String × List Student)}
    {lc : List (String × Nat)} (h : ∀ p ∈ m, p.2 = []) :
    availableLevels0 m lc = [] := by
  unfold availableLevels0
  rw [List.filterMap_eq_nil_iff]
  intro p hp
  rw [if_pos (by rw [h p hp]; rfl)]

theorem candidateLevels_of_all_empty {st : LoopState}
    (h : ∀ p ∈ st.byLevel, p.2 = []) : candidateLevels st = none := by
  unfold candidateLevels
  rw [availableLevels0_of_all_empty h]
  simp only [List.length_nil, reduceIte]
  cases hf : forcedLevel st.byLevel st.levelCooldown with
  | none => rfl
  | some q =>
    rcases forcedLevel_some hf with ⟨⟨b, hb, hbne⟩, _, _⟩
    exact absurd (h (q.1, b) hb) hbne

theorem candidateLevels_wf {st : LoopState}
    (hn : (keysOf st.byLevel).Nodup)
    (hke : ∀ k ∈ keysOf st.byLevel, k ≠ "")
    (hne : ∃ p ∈ st.byLevel, p.2 ≠ []) :
    ∃ availPre, candidateLevels st = some availPre ∧ availPre ≠ [] ∧
      ∀ a ∈ availPre, mapGetD st.byLevel a [] ≠ [] ∧ a ≠ "" ∧
        (mapGetD st.levelCooldown a 0 = 0 ∨
          ∀ p ∈ st.byLevel, p.2 ≠ [] →
            mapGetD st.levelCooldown a 0 ≤ mapGetD st.levelCooldown p.1 0) := by
  rcases hne with ⟨p₀, hp₀, hp₀ne⟩
  by_cases h0 : availableLevels0 st.byLevel st.levelCooldown = []
  · rcases forcedLevel_isSome st.levelCooldown hp₀ hp₀ne with ⟨q, hq⟩
    rcases forcedLevel_some hq with ⟨⟨b, hbmem, hbne⟩, hq2, hmin⟩
    have hq1k : q.1 ∈ keysOf st.byLevel := List.mem_map.mpr ⟨(q.1, b), hbmem, rfl⟩
    have hq1ne : q.1 ≠ "" := hke _ hq1k
    refine ⟨[q.1], ?_, by simp, ?_⟩
    · unfold candidateLevels
      rw [h0]
      simp only [List.length_nil, reduceIte]
      rw [hq]
      show (if q.1 = "" then none else some [q.1] : Option (List String)) = some [q.1]
      rw [if_neg hq1ne]
    · intro a ha
      have ha1 : a = q.1 := by simpa using ha
      subst ha1
      rcases nodup_decomp hn hbmem with ⟨m₁, m₂, _, _, _, _, hget⟩
      refine ⟨by rw [mapGetD_of_get? [] hget]; exact hbne, hq1ne, Or.inr ?_⟩
      intro p hp hpne
      rw [← hq2]
      exact hmin p hp hpne
  · refine ⟨availableLevels0 st.byLevel st.levelCooldown, ?_, h0, ?_⟩
    · unfold candidateLevels
      rw [if_neg (fun hl => h0 (List.length_eq_zero.mp hl))]
    · intro a ha
      rcases availableLevels0_mem ha with ⟨⟨b, hbmem, hbne⟩, hcd⟩
      have hak : a ∈ keysOf st.byLevel := List.mem_map.mpr ⟨(a, b), hbmem, rfl⟩
      rcases nodup_decomp hn hbmem with ⟨m₁, m₂, _, _, _, _, hget⟩
      exact ⟨by rw [mapGetD_of_get? [] hget]; exact hbne, hke _ hak, Or.inl hcd⟩

theorem pickBody_wf (rooms : List (String × List String)) (st : LoopState)
    (availPre : List String) (f : Bool)
    (hpre : availPre ≠ [])
    (hprops : ∀ a ∈ availPre, mapGetD st.byLevel a [] ≠ [] ∧ a ≠ "") :
    ∃ sel lvl s2 g, lvl ∈ availPre ∧
      sel ∈ validCandidates st.byLevel st.roomCooldown lvl ∧
      pickBody rooms st availPre f = .cont (commit rooms { st with
        rs := s2, emergencyUsed := st.emergencyUsed,
        levelForcedUsed := f, subFallbackUsed := g } sel lvl) := by
  cases havail : shuffleWith st.rs availPre with
  | nil =>
    have := shuffleWith_perm st.rs availPre
    rw [havail] at this
    exact absurd this.symm.eq_nil hpre
  | cons a arest =>
    have hmem_a : a ∈ availPre := by
      have := shuffleWith_perm st.rs availPre
      rw [havail] at this
      exact this.mem_iff.mp (List.mem_cons.mpr (Or.inl rfl))
    obtain ⟨hbne, hane⟩ := hprops a hmem_a
    obtain ⟨sel, fb, hsel0, hselvc⟩ :=
      tryLevels_head_some st.roomCooldown (RS.drop st.rs availPre.length) arest hbne
    refine ⟨sel, a, RS.tail (RS.drop st.rs availPre.length), st.subFallbackUsed || fb,
            hmem_a, hselvc, ?_⟩
    simp only [pickBody]
    rw [havail, hsel0]
    simp only [Option.isSome_some, reduceIte, Option.map_some']
    rw [decide_eq_false hane]
    simp only [Bool.false_eq_true, reduceIte, Bool.or_false]
    rw [if_neg hane]

theorem pickStep_wf_spec (rooms : List (String × List String)) (st : LoopState)
    (hn : (keysOf st.byLevel).Nodup)
    (hke : ∀ k ∈ keysOf st.byLevel, k ≠ "") :
    ((∀ p ∈ st.byLevel, p.2 = []) ∧ pickStep rooms st = .halt st) ∨
    (∃ sel lvl s2 ff g,
      sel ∈ validCandidates st.byLevel st.roomCooldown lvl ∧
      sel ∈ mapGetD st.byLevel lvl [] ∧ lvl ≠ "" ∧
      (mapGetD st.levelCooldown lvl 0 = 0 ∨
        ∀ p ∈ st.byLevel, p.2 ≠ [] →
          mapGetD st.levelCooldown lvl 0 ≤ mapGetD st.levelCooldown p.1 0) ∧
      pickStep rooms st = .cont (commit rooms { st with
        rs := s2, emergencyUsed := st.emergencyUsed,
        levelForcedUsed := ff, subFallbackUsed := g } sel lvl)) := by
  by_cases hall : ∀ p ∈ st.byLevel, p.2 = []
  · refine Or.inl ⟨hall, ?_⟩
    unfold pickStep
    rw [candidateLevels_of_all_empty hall]
  · push_neg at hall
    rcases hall with ⟨p₀, hp₀, hp₀ne⟩
    rcases candidateLevels_wf hn hke ⟨p₀, hp₀, hp₀ne⟩ with ⟨availPre, hcand, hpre, hprops⟩
    rcases pickBody_wf rooms st availPre
        (st.levelForcedUsed ||
          decide ((availableLevels0 st.byLevel st.levelCooldown).length = 0))
        hpre (fun a ha => ⟨(hprops a ha).1, (hprops a ha).2.1⟩) with
      ⟨sel, lvl, s2, g, hlvlmem, hselvc, hbody⟩
    refine Or.inr ⟨sel, lvl, s2,
      st.levelForcedUsed ||
        decide ((availableLevels0 st.byLevel st.levelCooldown).length = 0),
      g, hselvc, validCandidates_subset hselvc,
      (hprops lvl hlvlmem).2.1, (hprops lvl hlvlmem).2.2, ?_⟩
    unfold pickStep
    rw [hcand]
    exact hbody

/-! ### Commit and loop preservation lemmas -/

theorem flattenB_eq_nil {m : List (String × List Student)}
    (h : ∀ p ∈ m, p.2 = []) : flattenB m = [] := by
  induction m with
  | nil => rfl
  | cons p rest ih =>
    rw [flattenB_cons, h p (List.mem_cons.mpr (Or.inl rfl))]
    exact ih (fun q hq => h q (List.mem_cons.mpr (Or.inr hq)))

theorem keysOf_mapSet_of_has {β : Type} {m : List (String × β)} {k : String} (v : β)
    (h : mapHas m k = true) : keysOf (mapSet m k v) = keysOf m := by
  unfold mapSet
  rw [h]
  simp only [if_true]
  unfold keysOf
  rw [List.map_map]
  apply List.map_congr_left
  intro p _
  by_cases hp : p.1 == k
  · have : p.1 = k := by simpa using hp
    simp [hp, Function.comp, this]
  · simp [hp, Function.comp]

theorem mapHas_of_getD_ne {m : List (String × List Student)} {k : String}
    (h : mapGetD m k [] ≠ []) : mapHas m k = true := by
  cases hg : mapGet? m k with
  | none => exact absurd (by unfold mapGetD; rw [hg]; rfl) h
  | some b =>
    rw [mapHas_iff]
    exact List.mem_map.mpr ⟨(k, b), mapGet?_mem hg, rfl⟩

theorem mem_of_mapGetD {m : List (String × List Student)} {k : String} {x : Student}
    (h : x ∈ mapGetD m k []) : ∃ b, mapGet? m k = some b ∧ x ∈ b := by
  cases hg : mapGet? m k with
  | none =>
    rw [mapGetD, hg] at h
    simp at h
  | some b =>
    rw [mapGetD, hg] at h
    exact ⟨b, rfl, h⟩

/-- Removing the selected entry from its bucket and appending it to the
result preserves the structural invariant. -/
theorem structInv_erase {students : List Student} {m : List (String × List Student)}
    {res : List Student} {sel : Student} {lvl : String}
    (hinv : StructInv students m res) (hmem : sel ∈ mapGetD m lvl []) :
    StructInv students (mapSet m lvl ((mapGetD m lvl []).erase sel)) (res ++ [sel]) := by
  rcases mem_of_mapGetD hmem with ⟨b, hget, hselb⟩
  have hgd : mapGetD m lvl [] = b := mapGetD_of_get? [] hget
  have hbmem : (lvl, b) ∈ m := mapGet?_mem hget
  rcases nodup_decomp hinv.nodupKeys hbmem with ⟨m₁, m₂, hsplit, hk1, hk2, hset, _⟩
  have hm' : mapSet m lvl ((mapGetD m lvl []).erase sel) = m₁ ++ (lvl, b.erase sel) :: m₂ := by
    rw [hgd]; exact hset _
  have hkeq : keysOf (mapSet m lvl ((mapGetD m lvl []).erase sel)) = keysOf m := by
    rw [hm', hsplit, keysOf_append, keysOf_append, keysOf_cons, keysOf_cons]
  refine ⟨?_, ?_, ?_, ?_⟩
  · rw [hkeq]; exact hinv.nodupKeys
  · rw [hm']
    intro p hp x hx
    rcases List.mem_append.mp hp with h1 | h1
    · exact hinv.homog p (by rw [hsplit]; exact List.mem_append.mpr (Or.inl h1)) x hx
    · rcases List.mem_cons.mp h1 with h2 | h2
      · rw [h2] at hx ⊢
        exact hinv.homog (lvl, b) hbmem x (List.erase_subset _ _ hx)
      · exact hinv.homog p
          (by rw [hsplit]; exact List.mem_append.mpr (Or.inr (List.mem_cons.mpr (Or.inr h2))))
          x hx
  · intro k hk
    rw [hkeq] at hk
    exact hinv.keysLevels k hk
  · have hbperm : b.Perm (sel :: b.erase sel) := List.perm_cons_erase (hgd ▸ hmem)
    have hflat : (flattenB (m₁ ++ (lvl, b.erase sel) :: m₂)).Perm
        (b.erase sel ++ (flattenB m₁ ++ flattenB m₂)) := by
      rw [flattenB_append, flattenB_cons]
      have h1 : flattenB m₁ ++ (b.erase sel ++ flattenB m₂) =
          (flattenB m₁ ++ b.erase sel) ++ flattenB m₂ := by simp
      rw [h1]
      have := (@List.perm_append_comm _ (flattenB m₁) (b.erase sel)).append_right
        (flattenB m₂)
      refine this.trans ?_
      simp
    have hflat0 : (flattenB m).Perm (b ++ (flattenB m₁ ++ flattenB m₂)) := by
      rw [hsplit, flattenB_append, flattenB_cons]
      have h1 : flattenB m₁ ++ (b ++ flattenB m₂) = (flattenB m₁ ++ b) ++ flattenB m₂ := by
        simp
      rw [h1]
      have := (@List.perm_append_comm _ (flattenB m₁) b).append_right (flattenB m₂)
      refine this.trans ?_
      simp
    have key : ((res ++ [sel]) ++ flattenB (m₁ ++ (lvl, b.erase sel) :: m₂)).Perm
        (res ++ flattenB m) := by
      refine (List.Perm.append_left _ hflat).trans ?_
      refine List.Perm.trans ?_ (List.Perm.append_left res hflat0.symm)
      have h1 : (res ++ [sel]) ++ (b.erase sel ++ (flattenB m₁ ++ flattenB m₂)) =
          res ++ ([sel] ++ (b.erase sel ++ (flattenB m₁ ++ flattenB m₂))) := by simp
      rw [h1]
      refine List.Perm.append_left res ?_
      have h2 : [sel] ++ (b.erase sel ++ (flattenB m₁ ++ flattenB m₂)) =
          (sel :: b.erase sel) ++ (flattenB m₁ ++ flattenB m₂) := by simp
      rw [h2]
      exact hbperm.symm.append_right _
    rw [hm']
    exact key.trans hinv.permAll

theorem pickStep_halt_fields {rooms : List (String × List String)} {st st' : LoopState}
    (h : pickStep rooms st = .halt st') :
    st'.byLevel = st.byLevel ∧ st'.levelCooldown = st.levelCooldown ∧
    st'.roomCooldown = st.roomCooldown ∧ st'.result = st.result := by
  unfold pickStep at h
  cases hc : candidateLevels st with
  | none =>
    rw [hc] at h
    simp only [] at h
    injection h with h
    rw [← h]
    exact ⟨rfl, rfl, rfl, rfl⟩
  | some availPre =>
    rw [hc] at h
    simp only [] at h
    exact pickBody_halt_shape h

theorem pickStep_cont_fields {rooms : List (String × List String)} {st st' : LoopState}
    (hn : (keysOf st.byLevel).Nodup)
    (h : pickStep rooms st = .cont st') :
    ∃ sel lvl,
      sel ∈ mapGetD st.byLevel lvl [] ∧ lvl ≠ "" ∧
      st'.byLevel = mapSet st.byLevel lvl ((mapGetD st.byLevel lvl []).erase sel) ∧
      st'.result = st.result ++ [sel] ∧
      st'.levelCooldown = (mapSet st.levelCooldown lvl LEVEL_COOLDOWN).map
        (fun p => if p.1 == lvl then p else (p.1, p.2 - 1)) ∧
      st'.roomCooldown = (mapSet st.roomCooldown (roomKeyOf lvl sel.room)
        (roomCountOf rooms lvl - 1)).map
        (fun p => if p.1 == roomKeyOf lvl sel.room then p else (p.1, p.2 - 1)) := by
  unfold pickStep at h
  cases hc : candidateLevels st with
  | none =>
    rw [hc] at h
    simp at h
  | some availPre =>
    rw [hc] at h
    simp only [] at h
    rcases pickBody_cont_shape hn h with ⟨sel, lvl, s2, e, g, hmem, hlvl, hst⟩
    subst hst
    exact ⟨sel, lvl, hmem, hlvl, rfl, rfl, rfl, rfl⟩

theorem pickLoop_structInv {students : List Student} (rooms : List (String × List String)) :
    ∀ (n : Nat) (st : LoopState), StructInv students st.byLevel st.result →
      StructInv students (pickLoop rooms n st).byLevel (pickLoop rooms n st).result := by
  intro n
  induction n with
  | zero => intro st h; exact h
  | succ n ih =>
    intro st h
    rw [pickLoop]
    cases hs : pickStep rooms st with
    | halt st' =>
      rcases pickStep_halt_fields hs with ⟨h1, _, _, h4⟩
      rw [h1, h4]
      exact h
    | cont st' =>
      rcases pickStep_cont_fields h.nodupKeys hs with ⟨sel, lvl, hmem, hlvl, hby, hres, _, _⟩
      apply ih
      rw [hby, hres]
      exact structInv_erase h hmem

theorem pickLoop_run_perm {students : List Student} {rooms : List (String × List String)} :
    ∀ (n : Nat) (st : LoopState),
      StructInv students st.byLevel st.result →
      (∀ k ∈ keysOf st.byLevel, k ≠ "") →
      (flattenB st.byLevel).length = n →
      (pickLoop rooms n st).result.Perm students := by
  intro n
  induction n with
  | zero =>
    intro st hinv _ hlen
    have hf : flattenB st.byLevel = [] := List.length_eq_zero.mp hlen
    have hp := hinv.permAll
    rw [hf] at hp
    simpa using hp
  | succ n ih =>
    intro st hinv hke hlen
    rcases pickStep_wf_spec rooms _ hinv.nodupKeys hke with
      ⟨hall, _⟩ | ⟨sel, lvl, s2, ff, g, _, hmem, hlvl, _, hstep⟩
    · rw [flattenB_eq_nil hall] at hlen
      simp at hlen
    · rcases pickStep_cont_fields hinv.nodupKeys hstep with
        ⟨sel', lvl', hmem', hlvl', hby, hres, _, _⟩
      rw [pickLoop, hstep]
      have hinv' := structInv_erase hinv hmem'
      apply ih
      · rw [hby, hres]
        exact hinv'
      · intro k hk
        rw [hby, keysOf_mapSet_of_has _ (mapHas_of_getD_ne (List.ne_nil_of_mem hmem'))] at hk
        exact hke k hk
      · have hl1 := hinv.permAll.length_eq
        have hl2 := hinv'.permAll.length_eq
        rw [hby]
        simp only [List.length_append, List.length_singleton] at hl1 hl2
        omega

theorem pickLoop_emergency {students : List Student} {rooms : List (String × List String)} :
    ∀ (n : Nat) (st : LoopState),
      StructInv students st.byLevel st.result →
      (∀ k ∈ keysOf st.byLevel, k ≠ "") →
      (pickLoop rooms n st).emergencyUsed = st.emergencyUsed := by
  intro n
  induction n with
  | zero => intro st _ _; rfl
  | succ n ih =>
    intro st hinv hke
    rcases pickStep_wf_spec rooms _ hinv.nodupKeys hke with
      ⟨hall, hstep⟩ | ⟨sel, lvl, s2, ff, g, _, hmem, hlvl, _, hstep⟩
    · rw [pickLoop, hstep]
    · rcases pickStep_cont_fields hinv.nodupKeys hstep with
        ⟨sel', lvl', hmem', hlvl', hby, hres, _, _⟩
      rw [pickLoop, hstep]
      have hinv' : StructInv students
          (commit rooms { st with
            rs := s2, emergencyUsed := st.emergencyUsed,
            levelForcedUsed := ff, subFallbackUsed := g } sel lvl).byLevel
          (commit rooms { st with
            rs := s2, emergencyUsed := st.emergencyUsed,
            levelForcedUsed := ff, subFallbackUsed := g } sel lvl).result := by
        rw [hby, hres]
        exact structInv_erase hinv hmem'
      have hke' : ∀ k ∈ keysOf (commit rooms { st with
          rs := s2, emergencyUsed := st.emergencyUsed,
          levelForcedUsed := ff, subFallbackUsed := g } sel lvl).byLevel, k ≠ "" := by
        intro k hk
        rw [hby, keysOf_mapSet_of_has _ (mapHas_of_getD_ne (List.ne_nil_of_mem hmem'))] at hk
        exact hke k hk
      exact (ih _ hinv' hke').trans rfl

theorem pickLoop_result_extends (rooms : List (String × List String)) :
    ∀ (n : Nat) (st : LoopState), (keysOf st.byLevel).Nodup →
      ∃ t, (pickLoop rooms n st).result = st.result ++ t := by
  intro n
  induction n with
  | zero => intro st _; exact ⟨[], by simp [pickLoop]⟩
  | succ n ih =>
    intro st hn
    rw [pickLoop]
    cases hs : pickStep rooms st with
    | halt st' =>
      rcases pickStep_halt_fields hs with ⟨_, _, _, h4⟩
      exact ⟨[], by simp [h4]⟩
    | cont st' =>
      rcases pickStep_cont_fields hn hs with ⟨sel, lvl, hmem, hlvl, hby, hres, _, _⟩
      have hn' : (keysOf st'.byLevel).Nodup := by
        rw [hby, keysOf_mapSet_of_has _ (mapHas_of_getD_ne (List.ne_nil_of_mem hmem))]
        exact hn
      rcases ih st' hn' with ⟨t, ht⟩
      exact ⟨sel :: t, by rw [ht, hres]; simp⟩

/-! ### Top-level run theorems -/

theorem initState_keys_ne (students : List Student) (s : RS)
    (hwf : ∀ x ∈ students, x.level ≠ "") :
    ∀ k ∈ keysOf (initState students s).byLevel, k ≠ "" := by
  intro k hk
  rcases (initState_inv students s).keysLevels k hk with ⟨x, hx, hxl⟩
  rw [← hxl]
  exact hwf x hx

theorem initState_flatten_length (students : List Student) (s : RS) :
    (flattenB (initState students s).byLevel).length = students.length := by
  have h := (initState_inv students s).permAll.length_eq
  have h0 : (initState students s).result = [] := rfl
  rw [h0] at h
  simpa using h

/-- For pools whose levels are all non-empty strings, the output is a
permutation of the input. -/
theorem fairDistributionShuffle_perm (students : List Student) (s : RS)
    (hwf : ∀ x ∈ students, x.level ≠ "") :
    (fairDistributionShuffle students s).Perm students := by
  unfold fairDistributionShuffle
  by_cases hle : students.length ≤ 2
  · rw [if_pos hle]
  · rw [if_neg hle]
    exact pickLoop_run_perm students.length (initState students s)
      (initState_inv students s) (initState_keys_ne students s hwf)
      (initState_flatten_length students s)

/-- On every pool the output draws only from the input records. -/
theorem fairDistributionShuffle_count (students : List Student) (s : RS) (x : Student) :
    (fairDistributionShuffle students s).count x ≤ students.count x := by
  unfold fairDistributionShuffle
  by_cases hle : students.length ≤ 2
  · rw [if_pos hle]
  · rw [if_neg hle]
    unfold runN
    have hinv := pickLoop_structInv (roomsPerLevelOf students)
      students.length (initState students s) (initState_inv students s)
    have hc := hinv.permAll.count_eq x
    rw [List.count_append] at hc
    omega

theorem fairDistributionShuffle_length_le (students : List Student) (s : RS) :
    (fairDistributionShuffle students s).length ≤ students.length := by
  unfold fairDistributionShuffle
  by_cases hle : students.length ≤ 2
  · rw [if_pos hle]
  · rw [if_neg hle]
    unfold runN
    have hinv := pickLoop_structInv (roomsPerLevelOf students)
      students.length (initState students s) (initState_inv students s)
    have hc := hinv.permAll.length_eq
    rw [List.length_append] at hc
    omega

theorem runN_emergency (students : List Student) (s : RS) (n : Nat)
    (hwf : ∀ x ∈ students, x.level ≠ "") :
    (runN students s n).emergencyUsed = false := by
  unfold runN
  exact (pickLoop_emergency n (initState students s) (initState_inv students s)
    (initState_keys_ne students s hwf)).trans rfl

theorem mem_mapSet {β : Type} {m : List (String × β)} {k : String} {v : β}
    {p : String × β} (h : p ∈ mapSet m k v) : p = (k, v) ∨ p ∈ m := by
  unfold mapSet at h
  by_cases hh : mapHas m k
  · rw [if_pos hh] at h
    rcases List.mem_map.mp h with ⟨q, hq, he⟩
    by_cases hqk : q.1 == k
    · rw [if_pos hqk] at he
      exact Or.inl he.symm
    · rw [if_neg hqk] at he
      exact Or.inr (he ▸ hq)
  · rw [if_neg hh] at h
    rcases List.mem_append.mp h with h1 | h1
    · exact Or.inr h1
    · simp at h1
      exact Or.inl h1
theorem mem_decrMap {m : List (String × Nat)} {k : String} {p : String × Nat}
    (h : p ∈ m.map (fun q => if q.1 == k then q else (q.1, q.2 - 1))) :
    ∃ q ∈ m, p.1 = q.1 ∧ p.2 ≤ q.2 := by
  rcases List.mem_map.mp h with ⟨q, hq, he⟩
  by_cases hqk : q.1 == k
  · rw [if_pos hqk] at he
    exact ⟨q, hq, by rw [← he], by rw [← he]⟩
  · rw [if_neg hqk] at he
    exact ⟨q, hq, by rw [← he], by rw [← he]; omega⟩

theorem mem_flattenB {m : List (String × List Student)} {k : String} {b : List Student}
    {x : Student} (hb : (k, b) ∈ m) (hx : x ∈ b) : x ∈ flattenB m := by
  induction m with
  | nil => simp at hb
  | cons p rest ih =>
    rw [flattenB_cons]
    rcases List.mem_cons.mp hb with h1 | h1
    · exact List.mem_append.mpr (Or.inl (by rw [← h1]; exact hx))
    · exact List.mem_append.mpr (Or.inr (ih h1))

theorem pickStep_cooldownBounds {students : List Student}
    (rooms : List (String × List String)) {st : LoopState}
    (hinv : StructInv students st.byLevel st.result)
    (hcb : CooldownBounds students rooms st.levelCooldown st.roomCooldown) :
    CooldownBounds students rooms (pickStep rooms st).state.levelCooldown
      (pickStep rooms st).state.roomCooldown := by
  cases hs : pickStep rooms st with
  | halt st' =>
    rcases pickStep_halt_fields hs with ⟨_, h2, h3, _⟩
    show CooldownBounds students rooms st'.levelCooldown st'.roomCooldown
    rw [h2, h3]
    exact hcb
  | cont st' =>
    rcases pickStep_cont_fields hinv.nodupKeys hs with
      ⟨sel, lvl, hmem, hlvl, hby, hres, hlc, hrc⟩
    show CooldownBounds students rooms st'.levelCooldown st'.roomCooldown
    rw [hlc, hrc]
    have hpair : poolPair students lvl sel.room := by
      rcases mem_of_mapGetD hmem with ⟨b, hget, hselb⟩
      have hbmem : (lvl, b) ∈ st.byLevel := mapGet?_mem hget
      have hlevel : sel.level = lvl := hinv.homog (lvl, b) hbmem sel hselb
      have hstud : sel ∈ students := by
        have hflat : sel ∈ flattenB st.byLevel := mem_flattenB hbmem hselb
        exact hinv.permAll.mem_iff.mp (List.mem_append.mpr (Or.inr hflat))
      exact ⟨sel, hstud, hlevel, rfl⟩
    constructor
    · intro p hp
      rcases mem_decrMap hp with ⟨q, hq, _, hle⟩
      rcases mem_mapSet hq with h1 | h1
      · rw [h1] at hle
        exact hle
      · exact le_trans hle (hcb.1 q h1)
    · intro p hp
      rcases mem_decrMap hp with ⟨q, hq, hk, hle⟩
      rcases mem_mapSet hq with h1 | h1
      · refine ⟨lvl, sel.room, hpair, ?_, ?_⟩
        · rw [hk, h1]
        · rw [h1] at hle
          exact hle
      · rcases hcb.2 q h1 with ⟨L, r, hLr, hkey, hbound⟩
        exact ⟨L, r, hLr, by rw [hk]; exact hkey, le_trans hle hbound⟩

theorem pickLoop_cooldownBounds {students : List Student}
    {rooms : List (String × List String)} :
    ∀ (n : Nat) (st : LoopState),
      StructInv students st.byLevel st.result →
      CooldownBounds students rooms st.levelCooldown st.roomCooldown →
      CooldownBounds students rooms (pickLoop rooms n st).levelCooldown
        (pickLoop rooms n st).roomCooldown := by
  intro n
  induction n with
  | zero => intro st _ hcb; exact hcb
  | succ n ih =>
    intro st hinv hcb
    rw [pickLoop]
    have hstep := pickStep_cooldownBounds rooms hinv hcb
    cases hs : pickStep rooms st with
    | halt st' =>
      rw [hs] at hstep
      exact hstep
    | cont st' =>
      rw [hs] at hstep
      apply ih
      · rcases pickStep_cont_fields hinv.nodupKeys hs with
          ⟨sel, lvl, hmem, _, hby, hres, _, _⟩
        rw [hby, hres]
        exact structInv_erase hinv hmem
      · exact hstep

/-! ### Claim C1 -/

/-- C1 counterexample: on a pool of three entries whose group key is the
empty string, the function returns the empty list (the `if (bestLevel)` /
`if (!selectedLevel)` truthiness checks treat `""` as falsy and break), so
`select(P)` is not a permutation of `P` — already for one behaviour of the
random source, refuting the claim quantified over all pools. -/
theorem C1_counterexample :
    ¬ (fairDistributionShuffle blankPool zeroRS).Perm blankPool := by
  decide

/-- C1 (amended): for every pool whose entries all have a non-empty group
key — the spec's own data-model invariant — and every behaviour of the
random source, `fairDistributionShuffle` returns a permutation of its
input: same length, same multiset of entries, none duplicated, none lost. -/
theorem C1_amended_perm (students : List Student) (s : RS)
    (hwf : ∀ x ∈ students, x.level ≠ "") :
    (fairDistributionShuffle students s).Perm students :=
  fairDistributionShuffle_perm students s hwf

/-- Witness for C1: the amended theorem applied to a concrete pool. -/
theorem C1_witness :
    (fairDistributionShuffle pairLevelPool zeroRS).Perm pairLevelPool :=
  C1_amended_perm pairLevelPool zeroRS (by decide)

/-! ### Claim C2 -/

/-- C2: a pool of at most two entries (including the empty pool) is
returned as-is, in input order, with no cooldown logic applied (line 72). -/
theorem C2_trivial (students : List Student) (s : RS)
    (h : students.length ≤ 2) :
    fairDistributionShuffle students s = students := by
  unfold fairDistributionShuffle
  rw [if_pos h]

/-- Witness for C2 at a two-element pool (and the empty pool evaluates the
same way through the theorem's hypothesis). -/
theorem C2_witness :
    fairDistributionShuffle twoPool zeroRS = twoPool :=
  C2_trivial twoPool zeroRS (by decide)

/-! ### Claim C3 -/

/-- C3: at every pick step of a run on a well-formed pool (non-empty group
keys), the chosen group either has cooldown `<= 0` (here: `= 0`, counters
being naturals) or minimises the cooldown among all groups that still have
entries — the claim's own "equivalently" formulation of the
group-cooldown-spacing guarantee. -/
theorem C3_group_cooldown (students : List Student) (s : RS) (n : Nat)
    (hwf : ∀ x ∈ students, x.level ≠ "")
    (hc : (pickStep (roomsPerLevelOf students) (runN students s n)).isCont = true) :
    ∃ sel : Student,
      (pickStep (roomsPerLevelOf students) (runN students s n)).state.result =
        (runN students s n).result ++ [sel] ∧
      (mapGetD (runN students s n).levelCooldown sel.level 0 = 0 ∨
        ∀ p ∈ (runN students s n).byLevel, p.2 ≠ [] →
          mapGetD (runN students s n).levelCooldown sel.level 0 ≤
            mapGetD (runN students s n).levelCooldown p.1 0) := by
  have hinv : StructInv students (runN students s n).byLevel (runN students s n).result :=
    pickLoop_structInv (roomsPerLevelOf students) n (initState students s)
      (initState_inv students s)
  have hke : ∀ k ∈ keysOf (runN students s n).byLevel, k ≠ "" := by
    intro k hk
    rcases hinv.keysLevels k hk with ⟨x, hx, hxl⟩
    rw [← hxl]
    exact hwf x hx
  rcases pickStep_wf_spec (roomsPerLevelOf students) _ hinv.nodupKeys hke with
    ⟨hall, hstep⟩ | ⟨sel, lvl, s2, ff, g, _, hmem, hlvl, hdisj, hstep⟩
  · rw [hstep] at hc
    simp [StepRes.isCont] at hc
  · rcases mem_of_mapGetD hmem with ⟨b, hget, hselb⟩
    have hlevel : sel.level = lvl := hinv.homog (lvl, b) (mapGet?_mem hget) sel hselb
    refine ⟨sel, ?_, ?_⟩
    · rw [hstep]
      rfl
    · rw [hlevel]
      exact hdisj

/-- Witness for C3 at a concrete two-level pool, first pick. -/
theorem C3_witness :
    ∃ sel : Student,
      (pickStep (roomsPerLevelOf pairLevelPool) (runN pairLevelPool zeroRS 0)).state.result =
        (runN pairLevelPool zeroRS 0).result ++ [sel] ∧
      (mapGetD (runN pairLevelPool zeroRS 0).levelCooldown sel.level 0 = 0 ∨
        ∀ p ∈ (runN pairLevelPool zeroRS 0).byLevel, p.2 ≠ [] →
          mapGetD (runN pairLevelPool zeroRS 0).levelCooldown sel.level 0 ≤
            mapGetD (runN pairLevelPool zeroRS 0).levelCooldown p.1 0) :=
  C3_group_cooldown pairLevelPool zeroRS 0 (by decide) (by decide)

/-! ### Claim C5 -/

/-- C5 counterexample: on the empty-group pool the emergency fallback
branch (lines 185-194) does execute — the selected level `""` is falsy at
line 185 — refuting "never executed on any input". -/
theorem C5_counterexample :
    (runN blankPool zeroRS 3).emergencyUsed = true := by
  decide

/-- C5 (amended): on pools whose group keys are non-empty, the emergency
fallback branch is unreachable: after any number of loop iterations the
instrumentation flag is still false. -/
theorem C5_amended_unreachable (students : List Student) (s : RS) (n : Nat)
    (hwf : ∀ x ∈ students, x.level ≠ "") :
    (runN students s n).emergencyUsed = false :=
  runN_emergency students s n hwf

/-- Witness for C5: a full run on a concrete well-formed pool. -/
theorem C5_witness :
    (runN pairLevelPool zeroRS 4).emergencyUsed = false :=
  C5_amended_unreachable pairLevelPool zeroRS 4 (by decide)

/-! ### Claim C7 -/

/-- C7 counterexample: on the empty-group pool of size 3 the run stops
after 0 picks, not after exactly `|pool|` picks. -/
theorem C7_counterexample :
    (fairDistributionShuffle blankPool zeroRS).length ≠ blankPool.length := by
  decide

/-- C7 (amended): the pick loop always terminates — the embedding is
fuel-indexed by `|pool|`, mirroring `result.length < students.length`, and
each iteration appends at most one entry — so the output never exceeds
`|pool|` entries; and on pools with non-empty group keys the run completes
after exactly `|pool|` picks. -/
theorem C7_termination (students : List Student) (s : RS) :
    (fairDistributionShuffle students s).length ≤ students.length ∧
    ((∀ x ∈ students, x.level ≠ "") →
      (fairDistributionShuffle students s).length = students.length) :=
  ⟨fairDistributionShuffle_length_le students s,
   fun hwf => (fairDistributionShuffle_perm students s hwf).length_eq⟩

/-- Witness for C7 on a concrete pool. -/
theorem C7_witness :
    (fairDistributionShuffle pairLevelPool zeroRS).length = pairLevelPool.length :=
  (C7_termination pairLevelPool zeroRS).2 (by decide)

/-! ### Claim C8 -/

/-- C8: the core is a pure function of its input and the random stream (the
embedding is total and state-free), and the returned sequence holds only
records of the input pool — every output entry is one of the very records
passed in, with every field (in particular `is_winner`) unchanged, and no
record occurs in the output more often than in the input. -/
theorem C8_frame (students : List Student) (s : RS) :
    (∀ y ∈ fairDistributionShuffle students s, y ∈ students) ∧
    (∀ x : Student,
      (fairDistributionShuffle students s).count x ≤ students.count x) := by
  refine ⟨?_, fairDistributionShuffle_count students s⟩
  intro y hy
  have h := fairDistributionShuffle_count students s y
  have hpos : 0 < (fairDistributionShuffle students s).count y :=
    List.count_pos_iff.mpr hy
  exact List.count_pos_iff.mp (by omega)

/-! ### Claim C9 -/

/-- C9: two invocations on the same pool receiving the same random stream
return identical outputs, and (for pools entering the loop) the run starts
from freshly created empty cooldown maps and an empty result — no state
crosses invocations. -/
theorem C9_determinism (students : List Student) (s₁ s₂ : RS) (h : s₁ = s₂) :
    fairDistributionShuffle students s₁ = fairDistributionShuffle students s₂ ∧
    (2 < students.length →
      fairDistributionShuffle students s₁ =
        (pickLoop (roomsPerLevelOf students) students.length
          ⟨(shuffleBuckets s₁ (groupByLevel students)).1, [], [], [],
           (shuffleBuckets s₁ (groupByLevel students)).2, false, false, false⟩).result) := by
  subst h
  refine ⟨rfl, ?_⟩
  intro h2
  unfold fairDistributionShuffle
  rw [if_neg (by omega)]
  rfl

/-- Witness for C9 at a concrete pool and stream. -/
theorem C9_witness :
    fairDistributionShuffle pairLevelPool zeroRS = fairDistributionShuffle pairLevelPool zeroRS ∧
    (2 < pairLevelPool.length →
      fairDistributionShuffle pairLevelPool zeroRS =
        (pickLoop (roomsPerLevelOf pairLevelPool) pairLevelPool.length
          ⟨(shuffleBuckets zeroRS (groupByLevel pairLevelPool)).1, [], [], [],
           (shuffleBuckets zeroRS (groupByLevel pairLevelPool)).2, false, false, false⟩).result) :=
  C9_determinism pairLevelPool zeroRS zeroRS rfl

/-! ### Claim C10 -/

/-- C10 counterexample: room-cooldown keys are the string `level + "-" +
room`, which collides across levels.  After one pick on `collidePool` the
key `"a-b-c"` — which belongs to level `"a"` via its entry `("a", "b-c")` —
holds the value 1, exceeding level `"a"`'s window
`max(roomCount("a") - 1, 0) = 0`. -/
theorem C10_counterexample :
    mapGetD (runN collidePool zeroRS 1).roomCooldown "a-b-c" 0 = 1 ∧
    mkStudent 3 "a" "b-c" ∈ collidePool ∧
    roomKeyOf "a" "b-c" = "a-b-c" ∧
    roomCountOf (roomsPerLevelOf collidePool) "a" - 1 = 0 := by
  decide

/-- C10 (amended): when the key encoding is injective on the pool's
`(level, room)` pairs (no hyphen collisions), the claimed bounds hold at
every loop state: every level-cooldown value lies in `[0, 5]` and every
room-cooldown value whose key belongs to level `L` lies in
`[0, max(roomCount(L) - 1, 0)]`. -/
theorem C10_amended_bounds (students : List Student) (s : RS) (n : Nat)
    (hinj : ∀ x ∈ students, ∀ y ∈ students,
      roomKeyOf x.level x.room = roomKeyOf y.level y.room →
      x.level = y.level ∧ x.room = y.room) :
    (∀ p ∈ (runN students s n).levelCooldown, p.2 ≤ 5) ∧
    (∀ p ∈ (runN students s n).roomCooldown, ∀ L r,
      (∃ x ∈ students, x.level = L ∧ x.room = r) → p.1 = roomKeyOf L r →
      p.2 ≤ roomCountOf (roomsPerLevelOf students) L - 1) := by
  have hcb : CooldownBounds students (roomsPerLevelOf students)
      (runN students s n).levelCooldown (runN students s n).roomCooldown := by
    unfold runN
    apply pickLoop_cooldownBounds n (initState students s) (initState_inv students s)
    constructor
    · intro p hp
      have h0 : (initState students s).levelCooldown = [] := rfl
      rw [h0] at hp
      simp at hp
    · intro p hp
      have h0 : (initState students s).roomCooldown = [] := rfl
      rw [h0] at hp
      simp at hp
  refine ⟨fun p hp => hcb.1 p hp, ?_⟩
  intro p hp L r hpair hkey
  rcases hcb.2 p hp with ⟨L₀, r₀, ⟨x₀, hx₀, hx₀l, hx₀r⟩, hkey₀, hbound⟩
  rcases hpair with ⟨x, hx, hxl, hxr⟩
  have hk : roomKeyOf x.level x.room = roomKeyOf x₀.level x₀.room := by
    rw [hxl, hxr, hx₀l, hx₀r, ← hkey, ← hkey₀]
  rcases hinj x hx x₀ hx₀ hk with ⟨hL, hr⟩
  have hLL : L = L₀ := by rw [← hxl, ← hx₀l, hL]
  rw [hLL]
  exact hbound

/-- Witness for C10 on a concrete collision-free pool after one pick. -/
theorem C10_witness :
    (∀ p ∈ (runN pairLevelPool zeroRS 1).levelCooldown, p.2 ≤ 5) ∧
    (∀ p ∈ (runN pairLevelPool zeroRS 1).roomCooldown, ∀ L r,
      (∃ x ∈ pairLevelPool, x.level = L ∧ x.room = r) → p.1 = roomKeyOf L r →
      p.2 ≤ roomCountOf (roomsPerLevelOf pairLevelPool) L - 1) :=
  C10_amended_bounds pairLevelPool zeroRS 1 (by decide)

/-! ### Claim C4 -/

/-- C4 counterexample: in a pool with seven groups, group `"L"` has rooms
A, B, C with two entries each (the claim's premise), no fallback of any
kind fires during the first seven picks, yet the first two picks taken from
`"L"` are both from room A: the room cooldown `max(3 - 1, 0) = 2` is
decremented on every global pick, so it expires during the five picks the
group-cooldown forces between two picks of `"L"`. -/
theorem C4_counterexample :
    (runN sevenPool zeroRS 7).subFallbackUsed = false ∧
    (runN sevenPool zeroRS 7).levelForcedUsed = false ∧
    (runN sevenPool zeroRS 7).emergencyUsed = false ∧
    ((runN sevenPool zeroRS 7).result.filter (fun x => x.level == "L")).map
      (fun x => x.room) = ["A", "A"] ∧
    (mapGetD (roomsPerLevelOf sevenPool) "L" []).length = 3 ∧
    (∀ r ∈ mapGetD (roomsPerLevelOf sevenPool) "L" [],
      2 ≤ (sevenPool.filter (fun x => x.level == "L" && x.room == r)).length) := by
  decide

/-! ### Single-group analysis (claim C4, amended) -/

theorem mapGetD_cons_self {β : Type} (k : String) (v : β) (m : List (String × β)) (d : β) :
    mapGetD ((k, v) :: m) k d = v := by
  simp [mapGetD, mapGet?, List.find?_cons_of_pos]

theorem mapGetD_cons_ne {β : Type} {k k' : String} (v : β) (m : List (String × β)) (d : β)
    (h : k' ≠ k) : mapGetD ((k, v) :: m) k' d = mapGetD m k' d := by
  unfold mapGetD mapGet?
  rw [List.find?_cons_of_neg _ (by simpa using fun he => h he.symm)]

theorem mapGetD_nil {β : Type} (k : String) (d : β) : mapGetD [] k d = d := rfl

theorem mapSet_nil {β : Type} (k : String) (v : β) : mapSet [] k v = [(k, v)] := rfl

theorem mapSet_single_self {β : Type} (k : String) (b v : β) :
    mapSet [(k, b)] k v = [(k, v)] := by
  simp [mapSet, mapHas]

theorem mem_setAdd {l : List String} {x y : String} :
    y ∈ setAdd l x ↔ y ∈ l ∨ y = x := by
  unfold setAdd
  by_cases h : x ∈ l
  · rw [if_pos h]
    constructor
    · exact Or.inl
    · rintro (h1 | h1)
      · exact h1
      · rw [h1]; exact h
  · rw [if_neg h]
    simp

theorem setAdd_nodup {l : List String} (x : String) (h : l.Nodup) :
    (setAdd l x).Nodup := by
  unfold setAdd
  by_cases hx : x ∈ l
  · rw [if_pos hx]; exact h
  · rw [if_neg hx]
    simp [List.nodup_append, h, hx]

theorem roomsFold_mem {r : String} :
    ∀ (P : List Student) (acc : List String),
      (r ∈ P.foldl (fun a x => setAdd a x.room) acc ↔
        r ∈ acc ∨ ∃ x ∈ P, x.room = r) := by
  intro P
  induction P with
  | nil => intro acc; simp
  | cons x rest ih =>
    intro acc
    rw [List.foldl_cons, ih]
    rw [mem_setAdd]
    constructor
    · rintro ((h | h) | h)
      · exact Or.inl h
      · exact Or.inr ⟨x, List.mem_cons.mpr (Or.inl rfl), h.symm⟩
      · rcases h with ⟨y, hy, hyr⟩
        exact Or.inr ⟨y, List.mem_cons.mpr (Or.inr hy), hyr⟩
    · rintro (h | ⟨y, hy, hyr⟩)
      · exact Or.inl (Or.inl h)
      · rcases List.mem_cons.mp hy with h1 | h1
        · exact Or.inl (Or.inr (by rw [h1] at hyr; exact hyr.symm))
        · exact Or.inr ⟨y, h1, hyr⟩

theorem roomsFold_nodup :
    ∀ (P : List Student) (acc : List String), acc.Nodup →
      (P.foldl (fun a x => setAdd a x.room) acc).Nodup := by
  intro P
  induction P with
  | nil => intro acc h; exact h
  | cons x rest ih =>
    intro acc h
    rw [List.foldl_cons]
    exact ih _ (setAdd_nodup _ h)

theorem dedupRooms_mem {P : List Student} {r : String} :
    r ∈ dedupRooms P ↔ ∃ x ∈ P, x.room = r := by
  rw [dedupRooms, roomsFold_mem]
  simp

theorem dedupRooms_nodup (P : List Student) : (dedupRooms P).Nodup :=
  roomsFold_nodup P [] (by simp)

theorem mem_dedupRooms_of_mem {P : List Student} {x : Student} (h : x ∈ P) :
    x.room ∈ dedupRooms P := dedupRooms_mem.mpr ⟨x, h, rfl⟩

theorem groupByLevel_single_aux (L : String) :
    ∀ (l : List Student) (acc : List Student), (∀ x ∈ l, x.level = L) →
      l.foldl (fun m x => mapSet m x.level (mapGetD m x.level [] ++ [x])) [(L, acc)] =
        [(L, acc ++ l)] := by
  intro l
  induction l with
  | nil => intro acc _; simp
  | cons x rest ih =>
    intro acc hl
    rw [List.foldl_cons]
    have hx : x.level = L := hl x (List.mem_cons.mpr (Or.inl rfl))
    rw [hx, mapGetD_cons_self, mapSet_single_self,
        ih (acc ++ [x]) (fun y hy => hl y (List.mem_cons.mpr (Or.inr hy)))]
    simp

theorem groupByLevel_single {L : String} {P : List Student} (hne : P ≠ [])
    (hL : ∀ x ∈ P, x.level = L) : groupByLevel P = [(L, P)] := by
  cases P with
  | nil => exact absurd rfl hne
  | cons x rest =>
    unfold groupByLevel
    rw [List.foldl_cons]
    have hx : x.level = L := hL x (List.mem_cons.mpr (Or.inl rfl))
    have h1 : mapSet [] x.level (mapGetD [] x.level [] ++ [x]) = [(L, [x])] := by
      rw [hx, mapGetD_nil, mapSet_nil]
      rfl
    rw [h1, groupByLevel_single_aux L rest [x]
      (fun y hy => hL y (List.mem_cons.mpr (Or.inr hy)))]
    rfl

theorem roomsPerLevelOf_single_aux (L : String) :
    ∀ (l : List Student) (acc : List String), (∀ x ∈ l, x.level = L) →
      l.foldl (fun m x => mapSet m x.level (setAdd (mapGetD m x.level []) x.room)) [(L, acc)] =
        [(L, l.foldl (fun a x => setAdd a x.room) acc)] := by
  intro l
  induction l with
  | nil => intro acc _; simp
  | cons x rest ih =>
    intro acc hl
    rw [List.foldl_cons, List.foldl_cons]
    have hx : x.level = L := hl x (List.mem_cons.mpr (Or.inl rfl))
    rw [hx, mapGetD_cons_self, mapSet_single_self,
        ih (setAdd acc x.room) (fun y hy => hl y (List.mem_cons.mpr (Or.inr hy)))]

theorem roomsPerLevelOf_single {L : String} {P : List Student} (hne : P ≠ [])
    (hL : ∀ x ∈ P, x.level = L) : roomsPerLevelOf P = [(L, dedupRooms P)] := by
  cases P with
  | nil => exact absurd rfl hne
  | cons x rest =>
    unfold roomsPerLevelOf
    rw [List.foldl_cons]
    have hx : x.level = L := hL x (List.mem_cons.mpr (Or.inl rfl))
    have h1 : mapSet [] x.level (setAdd (mapGetD [] x.level []) x.room) =
        [(L, [x.room])] := by
      rw [hx, mapGetD_nil, mapSet_nil]
      rfl
    rw [h1, roomsPerLevelOf_single_aux L rest [x.room]
      (fun y hy => hL y (List.mem_cons.mpr (Or.inr hy)))]
    rfl

theorem stringExt {a b : String} (h : a.data = b.data) : a = b := by
  cases a
  cases b
  simp_all

theorem roomKeyOf_inj_room {L r r' : String} (h : roomKeyOf L r = roomKeyOf L r') :
    r = r' := by
  unfold roomKeyOf at h
  have hd := congrArg String.data h
  rw [String.data_append, String.data_append, String.data_append, String.data_append] at hd
  exact stringExt (List.append_cancel_left hd)

theorem exists_second_room {R : List String} (r : String)
    (hn : R.Nodup) (hlen : 2 ≤ R.length) : ∃ r' ∈ R, r' ≠ r := by
  by_contra hc
  push_neg at hc
  have hsub : R ⊆ [r] := fun y hy => by simp [hc y hy]
  have := (List.subperm_of_subset hn hsub).length_le
  simp at this
  omega

theorem exists_third_room {R : List String} (r₁ r₂ : String)
    (hn : R.Nodup) (hlen : 3 ≤ R.length) : ∃ r₃ ∈ R, r₃ ≠ r₁ ∧ r₃ ≠ r₂ := by
  by_contra hc
  push_neg at hc
  have hsub : R ⊆ [r₁, r₂] := by
    intro y hy
    rcases Classical.em (y = r₁) with h | h
    · simp [h]
    · simp [hc y hy h]
  have := (List.subperm_of_subset hn hsub).length_le
  simp at this
  omega

theorem countP_erase_of_ne {B : List Student} {sel : Student} {p : Student → Bool}
    (hmem : sel ∈ B) (hp : p sel = false) :
    (B.erase sel).countP p = B.countP p := by
  have hperm := List.perm_cons_erase hmem
  have := hperm.countP_eq p
  rw [List.countP_cons, hp] at this
  simpa using this.symm

theorem candidateLevels_single {L : String} {b : List Student}
    {lc rc : List (String × Nat)} {res : List Student} {rs : RS} {e f g : Bool}
    (hb : b ≠ []) (hL : L ≠ "") :
    candidateLevels ⟨[(L, b)], lc, rc, res, rs, e, f, g⟩ = some [L] := by
  have hlen : ¬ b.length = 0 := fun h => hb (List.length_eq_zero.mp h)
  have havail : availableLevels0 [(L, b)] lc =
      if mapGetD lc L 0 ≤ 0 then [L] else [] := by
    unfold availableLevels0
    by_cases hcd : mapGetD lc L 0 ≤ 0
    · rw [if_pos hcd]
      have hcd0 : mapGetD lc L 0 = 0 := by omega
      simp [List.filterMap_cons, hb, hcd0]
    · rw [if_neg hcd]
      simp only [List.filterMap_cons]
      simp [hb]
      rw [if_neg (by omega : ¬ mapGetD lc L 0 = 0)]
  show (if (availableLevels0 [(L, b)] lc).length = 0 then
          match forcedLevel [(L, b)] lc with
          | some q => if q.1 = "" then none else some [q.1]
          | none => none
        else some (availableLevels0 [(L, b)] lc)) = some [L]
  rw [havail]
  by_cases hcd : mapGetD lc L 0 ≤ 0
  · rw [if_pos hcd]
    simp
  · rw [if_neg hcd]
    have hforced : forcedLevel [(L, b)] lc = some (L, mapGetD lc L 0) := by
      unfold forcedLevel
      rw [List.foldl_cons]
      show List.foldl (forcedStep lc) (forcedStep lc none (L, b)) [] = _
      rw [forcedStep_eq]
      simp [hlen]
    simp only [List.length_nil, reduceIte, hforced]
    rw [if_neg hL]

theorem pickStep_single (rooms : List (String × List String)) (L : String)
    (b : List Student) (lc rc : List (String × Nat)) (res : List Student)
    (rs : RS) (e f g : Bool)
    (hb : b ≠ []) (hL : L ≠ "")
    (hfil : (b.filter (fun x => mapGetD rc (roomKeyOf L x.room) 0 ≤ 0)).length ≠ 0) :
    ∃ sel st', sel ∈ b.filter (fun x => mapGetD rc (roomKeyOf L x.room) 0 ≤ 0) ∧
      pickStep rooms ⟨[(L, b)], lc, rc, res, rs, e, f, g⟩ = .cont st' ∧
      st'.byLevel = [(L, b.erase sel)] ∧
      st'.result = res ++ [sel] ∧
      st'.levelCooldown = (mapSet lc L LEVEL_COOLDOWN).map
        (fun p => if p.1 == L then p else (p.1, p.2 - 1)) ∧
      st'.roomCooldown = (mapSet rc (roomKeyOf L sel.room) (roomCountOf rooms L - 1)).map
        (fun p => if p.1 == roomKeyOf L sel.room then p else (p.1, p.2 - 1)) := by
  have hgd : mapGetD (⟨[(L, b)], lc, rc, res, rs, e, f, g⟩ : LoopState).byLevel L [] = b :=
    mapGetD_cons_self L b [] []
  rcases pickBody_wf rooms ⟨[(L, b)], lc, rc, res, rs, e, f, g⟩ [L]
      ((⟨[(L, b)], lc, rc, res, rs, e, f, g⟩ : LoopState).levelForcedUsed ||
        decide ((availableLevels0
          (⟨[(L, b)], lc, rc, res, rs, e, f, g⟩ : LoopState).byLevel
          (⟨[(L, b)], lc, rc, res, rs, e, f, g⟩ : LoopState).levelCooldown).length = 0))
      (by simp)
      (fun a ha => by
        have ha1 : a = L := by simpa using ha
        subst ha1
        exact ⟨by rw [hgd]; exact hb, hL⟩) with
    ⟨sel, lvl, s2, g', hlvlmem, hselvc, hbody⟩
  have hlvl : lvl = L := by simpa using hlvlmem
  rw [hlvl] at hselvc hbody
  have hfil' : ((mapGetD (⟨[(L, b)], lc, rc, res, rs, e, f, g⟩ : LoopState).byLevel L []).filter
      (fun x => mapGetD (⟨[(L, b)], lc, rc, res, rs, e, f, g⟩ : LoopState).roomCooldown
        (roomKeyOf L x.room) 0 ≤ 0)).length ≠ 0 := by
    rw [hgd]
    exact hfil
  have hvc_eq := validCandidates_of_filter hfil'
  have hself : sel ∈ b.filter (fun x => mapGetD rc (roomKeyOf L x.room) 0 ≤ 0) := by
    have h1 := hselvc
    rw [hvc_eq, hgd] at h1
    exact h1
  have hstep : pickStep rooms (⟨[(L, b)], lc, rc, res, rs, e, f, g⟩ : LoopState) =
      pickBody rooms (⟨[(L, b)], lc, rc, res, rs, e, f, g⟩ : LoopState) [L]
        ((⟨[(L, b)], lc, rc, res, rs, e, f, g⟩ : LoopState).levelForcedUsed ||
          decide ((availableLevels0
            (⟨[(L, b)], lc, rc, res, rs, e, f, g⟩ : LoopState).byLevel
            (⟨[(L, b)], lc, rc, res, rs, e, f, g⟩ : LoopState).levelCooldown).length = 0)) := by
    unfold pickStep
    rw [candidateLevels_single hb hL]
  refine ⟨sel, _, hself, hstep.trans hbody, ?_, rfl, rfl, rfl⟩
  show mapSet [(L, b)] L ((mapGetD [(L, b)] L []).erase sel) = [(L, b.erase sel)]
  rw [mapGetD_cons_self, mapSet_single_self]

theorem pickLoop_cont_step {rooms : List (String × List String)} {st st' : LoopState}
    {n : Nat} (h : pickStep rooms st = .cont st') :
    pickLoop rooms (n + 1) st = pickLoop rooms n st' := by
  rw [pickLoop, h]

theorem decrMap_single_self (k : String) (v : Nat) :
    [(k, v)].map (fun p => if p.1 == k then p else (p.1, p.2 - 1)) = [(k, v)] := by
  simp

theorem decrMap_pair {k₁ k₂ : String} (v₁ v₂ : Nat) (h : k₁ ≠ k₂) :
    [(k₁, v₁), (k₂, v₂)].map (fun p => if p.1 == k₂ then p else (p.1, p.2 - 1)) =
      [(k₁, v₁ - 1), (k₂, v₂)] := by
  simp [beq_eq_false_iff_ne.mpr h]
  intro he
  exact absurd he h
/-- C4 (amended): for a pool consisting of a single group (all entries share
one non-empty level), with exactly three distinct rooms, each having at
least two entries, the first three picks touch three distinct rooms, for
every behaviour of the random source. -/
theorem C4_amended_roundRobin (P : List Student) (s : RS) (L : String)
    (hL : ∀ x ∈ P, x.level = L) (hLne : L ≠ "")
    (hR3 : (dedupRooms P).length = 3)
    (hcount : ∀ r ∈ dedupRooms P, 2 ≤ P.countP (fun x => x.room == r)) :
    ∃ a b c t, fairDistributionShuffle P s = a :: b :: c :: t ∧
      a.room ≠ b.room ∧ a.room ≠ c.room ∧ b.room ≠ c.room := by
  have hPne : P ≠ [] := by
    intro h
    rw [h] at hR3
    simp [dedupRooms] at hR3
  have hlen3 : 3 ≤ P.length := by
    have hsub : dedupRooms P ⊆ P.map (fun x => x.room) := by
      intro r hr
      rcases dedupRooms_mem.mp hr with ⟨x, hx, hxr⟩
      exact List.mem_map.mpr ⟨x, hx, hxr⟩
    have := (List.subperm_of_subset (dedupRooms_nodup P) hsub).length_le
    rw [List.length_map] at this
    omega
  obtain ⟨m, hm⟩ : ∃ m, P.length = m + 3 := ⟨P.length - 3, by omega⟩
  have hgroup : groupByLevel P = [(L, P)] := groupByLevel_single hPne hL
  have hrooms : roomsPerLevelOf P = [(L, dedupRooms P)] := roomsPerLevelOf_single hPne hL
  have hcnt : roomCountOf (roomsPerLevelOf P) L = 3 := by
    unfold roomCountOf
    rw [hrooms]
    have hg : mapGet? [(L, dedupRooms P)] L = some (dedupRooms P) := by
      simp [mapGet?]
    rw [hg]
    show (if (dedupRooms P).length = 0 then 1 else (dedupRooms P).length) = 3
    rw [hR3]
    rfl
  have hinit : initState P s =
      ⟨[(L, shuffleWith s P)], [], [], [], RS.drop s P.length, false, false, false⟩ := by
    unfold initState
    rw [hgroup]
    rfl
  have hBperm : (shuffleWith s P).Perm P := shuffleWith_perm s P
  have hBne : shuffleWith s P ≠ [] := by
    intro h
    have h2 := hBperm
    rw [h] at h2
    exact hPne h2.symm.eq_nil
  -- Step 1: no room cooldowns, every student valid.
  have hfil1 : ((shuffleWith s P).filter
      (fun x => mapGetD ([] : List (String × Nat)) (roomKeyOf L x.room) 0 ≤ 0)).length ≠ 0 := by
    have hfeq : (shuffleWith s P).filter
        (fun x => mapGetD ([] : List (String × Nat)) (roomKeyOf L x.room) 0 ≤ 0) =
        shuffleWith s P := by
      rw [List.filter_eq_self]
      intro a _
      simp [mapGetD_nil]
    rw [hfeq]
    intro h0
    exact hBne (List.length_eq_zero.mp h0)
  rcases pickStep_single (roomsPerLevelOf P) L (shuffleWith s P) [] [] []
      (RS.drop s P.length) false false false hBne hLne hfil1 with
    ⟨sel₁, st₁, hsel₁f, hstep₁, hby₁, hres₁, hlc₁, hrc₁⟩
  have hsel₁B : sel₁ ∈ shuffleWith s P := (List.mem_filter.mp hsel₁f).1
  have hsel₁P : sel₁ ∈ P := hBperm.mem_iff.mp hsel₁B
  have hr₁R : sel₁.room ∈ dedupRooms P := mem_dedupRooms_of_mem hsel₁P
  have hlc₁' : st₁.levelCooldown = [(L, LEVEL_COOLDOWN)] := by
    rw [hlc₁, mapSet_nil, decrMap_single_self]
  have hrc₁' : st₁.roomCooldown = [(roomKeyOf L sel₁.room, 2)] := by
    rw [hrc₁, mapSet_nil, hcnt]
    exact decrMap_single_self _ _
  have hres₁' : st₁.result = [sel₁] := by rw [hres₁]; rfl
  obtain ⟨a1, a2, a3, a4, a5, a6, a7, a8⟩ := st₁
  simp only [] at hby₁ hres₁' hlc₁' hrc₁' hstep₁
  subst hby₁ hres₁' hlc₁' hrc₁'
  -- Step 2: the first room is on cooldown 2; a second room has entries.
  obtain ⟨r₂', hr₂'R, hr₂'ne⟩ :=
    exists_second_room sel₁.room (dedupRooms_nodup P) (by omega)
  have hcount₂ : 0 < ((shuffleWith s P).erase sel₁).countP (fun x => x.room == r₂') := by
    have hps : (fun x => x.room == r₂') sel₁ = false := by
      simp only []
      exact beq_eq_false_iff_ne.mpr (fun he => hr₂'ne he.symm)
    rw [countP_erase_of_ne hsel₁B hps, hBperm.countP_eq]
    have := hcount r₂' hr₂'R
    omega
  have hkey₁ : ∀ r : String, r ≠ sel₁.room → roomKeyOf L r ≠ roomKeyOf L sel₁.room :=
    fun r hr hk => hr (roomKeyOf_inj_room hk)
  have hfil2 : (((shuffleWith s P).erase sel₁).filter
      (fun x => mapGetD [(roomKeyOf L sel₁.room, 2)] (roomKeyOf L x.room) 0 ≤ 0)).length ≠ 0 := by
    rcases List.countP_pos_iff.mp hcount₂ with ⟨x, hxb, hxr⟩
    have hxr' : x.room = r₂' := by simpa using hxr
    have hxmem : x ∈ ((shuffleWith s P).erase sel₁).filter
        (fun x => mapGetD [(roomKeyOf L sel₁.room, 2)] (roomKeyOf L x.room) 0 ≤ 0) := by
      refine List.mem_filter.mpr ⟨hxb, ?_⟩
      have hne : roomKeyOf L x.room ≠ roomKeyOf L sel₁.room := by
        rw [hxr']
        exact hkey₁ r₂' hr₂'ne
      rw [mapGetD_cons_ne _ _ _ hne, mapGetD_nil]
      simp
    intro h0
    exact List.ne_nil_of_mem hxmem (List.length_eq_zero.mp h0)
  have hb₁ne : (shuffleWith s P).erase sel₁ ≠ [] := by
    rcases List.countP_pos_iff.mp hcount₂ with ⟨x, hxb, _⟩
    exact List.ne_nil_of_mem hxb
  rcases pickStep_single (roomsPerLevelOf P) L ((shuffleWith s P).erase sel₁)
      [(L, LEVEL_COOLDOWN)] [(roomKeyOf L sel₁.room, 2)] [sel₁]
      a5 a6 a7 a8 hb₁ne hLne hfil2 with
    ⟨sel₂, st₂, hsel₂f, hstep₂, hby₂, hres₂, hlc₂, hrc₂⟩
  have hsel₂b₁ : sel₂ ∈ (shuffleWith s P).erase sel₁ := (List.mem_filter.mp hsel₂f).1
  have hsel₂B : sel₂ ∈ shuffleWith s P := List.erase_subset _ _ hsel₂b₁
  have hsel₂P : sel₂ ∈ P := hBperm.mem_iff.mp hsel₂B
  have hroom₂ : sel₂.room ≠ sel₁.room := by
    have hpred := (List.mem_filter.mp hsel₂f).2
    intro he
    rw [he] at hpred
    rw [mapGetD_cons_self] at hpred
    simp at hpred
  have hlc₂' : st₂.levelCooldown = [(L, LEVEL_COOLDOWN)] := by
    rw [hlc₂, mapSet_single_self, decrMap_single_self]
  have hrc₂' : st₂.roomCooldown =
      [(roomKeyOf L sel₁.room, 1), (roomKeyOf L sel₂.room, 2)] := by
    rw [hrc₂, hcnt]
    have hnk : roomKeyOf L sel₂.room ∉ keysOf [(roomKeyOf L sel₁.room, 2)] := by
      intro hk
      have h2 : roomKeyOf L sel₂.room = roomKeyOf L sel₁.room := by
        simpa [keysOf] using hk
      exact hkey₁ sel₂.room hroom₂ h2
    have habs : mapSet [(roomKeyOf L sel₁.room, 2)] (roomKeyOf L sel₂.room) (3 - 1) =
        [(roomKeyOf L sel₁.room, 2), (roomKeyOf L sel₂.room, 2)] := by
      rw [mapSet_absent _ hnk]
      rfl
    rw [habs]
    exact decrMap_pair 2 2 (fun h => hkey₁ sel₂.room hroom₂ h.symm)
  have hres₂' : st₂.result = [sel₁, sel₂] := by rw [hres₂]; rfl
  obtain ⟨c1, c2, c3, c4, c5, c6, c7, c8⟩ := st₂
  simp only [] at hby₂ hres₂' hlc₂' hrc₂' hstep₂
  subst hby₂ hres₂' hlc₂' hrc₂'
  -- Step 3: only the third room is off cooldown.
  obtain ⟨r₃, hr₃R, hr₃1, hr₃2⟩ :=
    exists_third_room sel₁.room sel₂.room (dedupRooms_nodup P) (by omega)
  have hcount₃ : 0 < (((shuffleWith s P).erase sel₁).erase sel₂).countP
      (fun x => x.room == r₃) := by
    have hps₂ : (fun x => x.room == r₃) sel₂ = false := by
      simp only []
      exact beq_eq_false_iff_ne.mpr (fun he => hr₃2 he.symm)
    have hps₁ : (fun x => x.room == r₃) sel₁ = false := by
      simp only []
      exact beq_eq_false_iff_ne.mpr (fun he => hr₃1 he.symm)
    rw [countP_erase_of_ne hsel₂b₁ hps₂, countP_erase_of_ne hsel₁B hps₁, hBperm.countP_eq]
    have := hcount r₃ hr₃R
    omega
  have hkey₂ : ∀ r : String, r ≠ sel₂.room → roomKeyOf L r ≠ roomKeyOf L sel₂.room :=
    fun r hr hk => hr (roomKeyOf_inj_room hk)
  have hfil3 : ((((shuffleWith s P).erase sel₁).erase sel₂).filter
      (fun x => mapGetD [(roomKeyOf L sel₁.room, 1), (roomKeyOf L sel₂.room, 2)]
        (roomKeyOf L x.room) 0 ≤ 0)).length ≠ 0 := by
    rcases List.countP_pos_iff.mp hcount₃ with ⟨x, hxb, hxr⟩
    have hxr' : x.room = r₃ := by simpa using hxr
    have hxmem : x ∈ (((shuffleWith s P).erase sel₁).erase sel₂).filter
        (fun x => mapGetD [(roomKeyOf L sel₁.room, 1), (roomKeyOf L sel₂.room, 2)]
          (roomKeyOf L x.room) 0 ≤ 0) := by
      refine List.mem_filter.mpr ⟨hxb, ?_⟩
      have hne₁ : roomKeyOf L x.room ≠ roomKeyOf L sel₁.room := by
        rw [hxr']
        exact hkey₁ r₃ hr₃1
      have hne₂ : roomKeyOf L x.room ≠ roomKeyOf L sel₂.room := by
        rw [hxr']
        exact hkey₂ r₃ hr₃2
      rw [mapGetD_cons_ne _ _ _ hne₁, mapGetD_cons_ne _ _ _ hne₂, mapGetD_nil]
      simp
    intro h0
    exact List.ne_nil_of_mem hxmem (List.length_eq_zero.mp h0)
  have hb₂ne : ((shuffleWith s P).erase sel₁).erase sel₂ ≠ [] := by
    rcases List.countP_pos_iff.mp hcount₃ with ⟨x, hxb, _⟩
    exact List.ne_nil_of_mem hxb
  rcases pickStep_single (roomsPerLevelOf P) L (((shuffleWith s P).erase sel₁).erase sel₂)
      [(L, LEVEL_COOLDOWN)] [(roomKeyOf L sel₁.room, 1), (roomKeyOf L sel₂.room, 2)]
      [sel₁, sel₂] c5 c6 c7 c8 hb₂ne hLne hfil3 with
    ⟨sel₃, st₃, hsel₃f, hstep₃, hby₃, hres₃, hlc₃, hrc₃⟩
  have hroom₃1 : sel₃.room ≠ sel₁.room := by
    have hpred := (List.mem_filter.mp hsel₃f).2
    intro he
    rw [he, mapGetD_cons_self] at hpred
    simp at hpred
  have hroom₃2 : sel₃.room ≠ sel₂.room := by
    have hpred := (List.mem_filter.mp hsel₃f).2
    intro he
    rw [he, mapGetD_cons_ne _ _ _ (hkey₁ sel₂.room hroom₂), mapGetD_cons_self] at hpred
    simp at hpred
  have hres₃' : st₃.result = [sel₁, sel₂, sel₃] := by rw [hres₃]; rfl
  -- Assemble: the full run starts with these three picks.
  have hnodup₃ : (keysOf st₃.byLevel).Nodup := by
    rw [hby₃]
    simp [keysOf]
  obtain ⟨t, ht⟩ := pickLoop_result_extends (roomsPerLevelOf P) m st₃ hnodup₃
  refine ⟨sel₁, sel₂, sel₃, t, ?_, fun h => hroom₂ h.symm, fun h => hroom₃1 h.symm,
          fun h => hroom₃2 h.symm⟩
  have hfds : fairDistributionShuffle P s =
      (pickLoop (roomsPerLevelOf P) P.length (initState P s)).result := by
    unfold fairDistributionShuffle runN
    rw [if_neg (by omega)]
  rw [hfds, hinit]
  have hfuel : pickLoop (roomsPerLevelOf P) P.length
      (⟨[(L, shuffleWith s P)], [], [], [], RS.drop s P.length,
        false, false, false⟩ : LoopState) =
      pickLoop (roomsPerLevelOf P) (m + 3)
      (⟨[(L, shuffleWith s P)], [], [], [], RS.drop s P.length,
        false, false, false⟩ : LoopState) := by
    rw [hm]
  rw [hfuel]
  calc (pickLoop (roomsPerLevelOf P) (m + 3)
          (⟨[(L, shuffleWith s P)], [], [], [], RS.drop s P.length,
            false, false, false⟩ : LoopState)).result
      = (pickLoop (roomsPerLevelOf P) (m + 2)
          (⟨[(L, (shuffleWith s P).erase sel₁)], [(L, LEVEL_COOLDOWN)],
            [(roomKeyOf L sel₁.room, 2)], [sel₁], a5, a6, a7, a8⟩ : LoopState)).result := by
        exact congrArg LoopState.result (pickLoop_cont_step (n := m + 2) hstep₁)
    _ = (pickLoop (roomsPerLevelOf P) (m + 1)
          (⟨[(L, ((shuffleWith s P).erase sel₁).erase sel₂)], [(L, LEVEL_COOLDOWN)],
            [(roomKeyOf L sel₁.room, 1), (roomKeyOf L sel₂.room, 2)],
            [sel₁, sel₂], c5, c6, c7, c8⟩ : LoopState)).result := by
        exact congrArg LoopState.result (pickLoop_cont_step (n := m + 1) hstep₂)
    _ = (pickLoop (roomsPerLevelOf P) m st₃).result := by
        exact congrArg LoopState.result (pickLoop_cont_step (n := m) hstep₃)
    _ = sel₁ :: sel₂ :: sel₃ :: t := by
        rw [ht, hres₃']
        rfl

/-- Witness for C4 on the concrete single-group pool. -/
theorem C4_witness :
    ∃ a b c t, fairDistributionShuffle oneGroupPool zeroRS = a :: b :: c :: t ∧
      a.room ≠ b.room ∧ a.room ≠ c.room ∧ b.room ≠ c.room :=
  C4_amended_roundRobin oneGroupPool zeroRS "g" (by decide) (by decide) (by decide)
    (by decide)
